import Mathlib

/-!
Shallow embedding of `src/convokit/hyperconvo.py` (the `Hypergraph` class and
the `HyperConvo` helpers) and proofs about the claims on its specification.

Modelling conventions:
* A Python `dict` (which preserves insertion order) is modelled as an
  insertion-ordered association list `List (κ × β)` with the operations
  `alookup` (indexing), `aset` (`d[k] = v`: update in place if present,
  append otherwise) and `amem` (`k in d`).
* A Python `set` accumulated by repeated `.add` is modelled as an
  insertion-ordered duplicate-free list (`insertNew`).  Claims proved below
  never depend on the iteration order of a `set`.
* Metadata / payload dicts are modelled by `Info := List (String × Int)`;
  the only operations the source performs on them are construction of
  `dict()`, of `{'timestamp': t}` and the check `len(info.keys()) > 0`.
* A raised Python exception (failed `assert`, `KeyError`, calling
  `.keys()` on `None`) is modelled by an `Option`-valued operation
  returning `none`.  Query helpers (`outgoing_nodes`, the motif
  enumerations, `outdegrees`, `indegrees`) index `self.adj_out[u]` /
  `self.adj_in[v]` for vertices `u`, `v` the class itself registered;
  every state the class can produce has those entries
  (`Produced.storeWF` below), so these helpers are modelled
  totally with a `[]` default for the lookup.
-/

namespace HC

/-- A metadata / payload dict (string keys, scalar values). -/
abbrev Info := List (String × Int)

section AListOps

variable {α : Type} {β : Type} [DecidableEq α]

/-- Indexing `d[k]` on a Python dict: the value stored at the first matching key. -/
def alookup : List (α × β) → α → Option β
  | [], _ => none
  | (k, v) :: d, x => if k = x then some v else alookup d x

/-- Assignment `d[k] = v` on a Python dict: replace in place if the key is present,
append at the end otherwise. -/
def aset : List (α × β) → α → β → List (α × β)
  | [], k, v => [(k, v)]
  | (k', v') :: d, k, v => if k' = k then (k, v) :: d else (k', v') :: aset d k v

/-- Membership `k in d` on a Python dict. -/
def amem (d : List (α × β)) (k : α) : Bool :=
  (alookup d k).isSome

/-- The key list of a dict, in iteration (= insertion) order. -/
def keys (d : List (α × β)) : List α :=
  d.map Prod.fst

/-- Lookup with a `[]` default for dict-of-list values. -/
def lookupD (d : List (α × List β)) (k : α) : List β :=
  (alookup d k).getD []

/-- Insertion `s.add x` on a Python set, modelled as an ordered duplicate-free list. -/
def insertNew [DecidableEq β] (s : List β) (x : β) : List β :=
  if x ∈ s then s else s ++ [x]

end AListOps

/-- Nested adjacency lookup: the edge-instance list recorded for the ordered
pair `(a, b)`, i.e. `self.adj_out[a][b]` (or `adj_in`), `none` when either
level has no entry. -/
def lookup2 {α : Type} [DecidableEq α] (d : List (α × List (α × List Info)))
    (a b : α) : Option (List Info) :=
  (alookup d a).bind (fun m => alookup m b)

/--
The `Hypergraph` class of `hyperconvo.py`.  `α` is the type of vertex
identities (Python: arbitrary hashables), `ν` the type of node metadata
blobs.  `self.nodes[u] = info if info is not None else dict()` stores the
optional blob; the embedding keeps the `Option` (with `none` playing the
role of the empty dict the source substitutes).  `add_hypernode` stores
only `set(nodes)` and discards its `info` argument, exactly as the source
does.
-/
structure Hypergraph (α : Type) (ν : Type) where
  nodes : List (α × Option ν)
  hypernodes : List (α × List α)
  adj_out : List (α × List (α × List Info))
  adj_in : List (α × List (α × List Info))

namespace Hypergraph

variable {α : Type} [DecidableEq α] {ν : Type}

/-- Constructor `Hypergraph.__init__`. -/
def empty : Hypergraph α ν := ⟨[], [], [], []⟩

/-- Method `Hypergraph.add_node`. -/
def add_node (g : Hypergraph α ν) (u : α) (info : Option ν) : Hypergraph α ν :=
  { g with
    nodes := aset g.nodes u info
    adj_out := aset g.adj_out u []
    adj_in := aset g.adj_in u [] }

/-- Method `Hypergraph.add_hypernode` (`info` is accepted and ignored, as in the
source; the member collection is converted to a set). -/
def add_hypernode (g : Hypergraph α ν) (name : α) (ns : List α)
    (info : Option Info) : Hypergraph α ν :=
  { g with
    hypernodes := aset g.hypernodes name (ns.foldl insertNew [])
    adj_out := aset g.adj_out name []
    adj_in := aset g.adj_in name [] }

/-- Whether `u` is registered: `u in self.nodes or u in self.hypernodes`. -/
def hasVertex (g : Hypergraph α ν) (u : α) : Bool :=
  amem g.nodes u || amem g.hypernodes u

/-- Condition under which `len(info.keys()) > 0` fails to hold: `info` is `None` (on which
`.keys()` raises) or an empty dict. -/
def emptyInfo : Option Info → Bool
  | none => true
  | some i => i.isEmpty

/-- Method `Hypergraph.add_edge`.  The two endpoint `assert`s, the
`assert len(info.keys()) > 0` for hyperedges (including the
`AttributeError` raised by `None.keys()`), and the `KeyError` on a missing
adjacency entry all surface as `none`. -/
def add_edge (g : Hypergraph α ν) (u v : α) (info : Option Info) :
    Option (Hypergraph α ν) :=
  if hasVertex g u = false then none
  else if hasVertex g v = false then none
  else if amem g.hypernodes u && amem g.hypernodes v && emptyInfo info then none
  else
    match alookup g.adj_out u, alookup g.adj_in v with
    | some mo, some mi =>
      let i := info.getD []
      some { g with
        adj_out := aset g.adj_out u (aset mo v ((alookup mo v).getD [] ++ [i]))
        adj_in := aset g.adj_in v (aset mi u ((alookup mi u).getD [] ++ [i])) }
    | _, _ => none

/-- Method `Hypergraph.outgoing_nodes`. -/
def outgoing_nodes (g : Hypergraph α ν) (u : α) : List (α × List Info) :=
  (lookupD g.adj_out u).filter (fun p => amem g.nodes p.1)

/-- Method `Hypergraph.outgoing_hypernodes`. -/
def outgoing_hypernodes (g : Hypergraph α ν) (u : α) : List (α × List Info) :=
  (lookupD g.adj_out u).filter (fun p => amem g.hypernodes p.1)

/-- Method `Hypergraph.incoming_nodes`. -/
def incoming_nodes (g : Hypergraph α ν) (v : α) : List (α × List Info) :=
  (lookupD g.adj_in v).filter (fun p => amem g.nodes p.1)

/-- Method `Hypergraph.incoming_hypernodes`. -/
def incoming_hypernodes (g : Hypergraph α ν) (v : α) : List (α × List Info) :=
  (lookupD g.adj_in v).filter (fun p => amem g.hypernodes p.1)

/-- The dict iterated over for a tier flag: `self.hypernodes if b else
self.nodes`, reduced to its key list (iterating a dict yields its keys). -/
def tierKeys (g : Hypergraph α ν) (hyper : Bool) : List α :=
  if hyper then keys g.hypernodes else keys g.nodes

/-- Membership test against a tier: `x in (self.hypernodes if b else
self.nodes)`. -/
def tierMem (g : Hypergraph α ν) (hyper : Bool) (x : α) : Bool :=
  if hyper then amem g.hypernodes x else amem g.nodes x

/-- Method `Hypergraph.outdegrees`. -/
def outdegrees (g : Hypergraph α ν) (from_hyper to_hyper : Bool) : List Nat :=
  (g.tierKeys from_hyper).map (fun u =>
    (((lookupD g.adj_out u).filter (fun p => g.tierMem to_hyper p.1)).map
      (fun p => p.2.length)).sum)

/-- Method `Hypergraph.indegrees`. -/
def indegrees (g : Hypergraph α ν) (from_hyper to_hyper : Bool) : List Nat :=
  (g.tierKeys to_hyper).map (fun v =>
    (((lookupD g.adj_in v).filter (fun p => g.tierMem from_hyper p.1)).map
      (fun p => p.2.length)).sum)

/-- Enumeration `itertools.combinations(l, 2)` in order. -/
def combs2 {β : Type} : List β → List (β × β)
  | [] => []
  | x :: rest => rest.map (fun y => (x, y)) ++ combs2 rest

/-- Method `Hypergraph.reciprocity_motifs`: tuples `(C1, c1, c2, C1->c2, c2->c1)`. -/
def reciprocity_motifs (g : Hypergraph α ν) : List (α × α × α × Info × Info) :=
  (keys g.hypernodes).flatMap (fun C1 =>
    (lookupD g.hypernodes C1).flatMap (fun c1 =>
      ((keys (lookupD g.adj_in c1)).filter (fun c2 =>
          amem g.nodes c2 && amem (lookupD g.adj_out C1) c2)).flatMap (fun c2 =>
        (lookupD (lookupD g.adj_out C1) c2).flatMap (fun e1 =>
          (lookupD (lookupD g.adj_out c2) c1).map (fun e2 =>
            (C1, c1, c2, e1, e2))))))

/-- Method `Hypergraph.external_reciprocity_motifs`: tuples
`(C3, c2, c1, C3->c2, c2->c1)`.  `set(self.adj_out[c2].keys()) -
self.hypernodes[C3]` is modelled as the ordered key list minus the member
set. -/
def external_reciprocity_motifs (g : Hypergraph α ν) :
    List (α × α × α × Info × Info) :=
  (keys g.hypernodes).flatMap (fun C3 =>
    ((keys (lookupD g.adj_out C3)).filter (fun c2 => amem g.nodes c2)).flatMap
      (fun c2 =>
        ((keys (lookupD g.adj_out c2)).filter (fun c1 =>
            c1 ∉ lookupD g.hypernodes C3 && amem g.nodes c1)).flatMap (fun c1 =>
          (lookupD (lookupD g.adj_out C3) c2).flatMap (fun e1 =>
            (lookupD (lookupD g.adj_out c2) c1).map (fun e2 =>
              (C3, c2, c1, e1, e2))))))

/-- Method `Hypergraph.dyadic_interaction_motifs`: tuples `(C1, C2, C1->C2, C2->C1)`. -/
def dyadic_interaction_motifs (g : Hypergraph α ν) : List (α × α × Info × Info) :=
  (keys g.hypernodes).flatMap (fun C1 =>
    ((keys (lookupD g.adj_out C1)).filter (fun C2 =>
        amem g.hypernodes C2 && amem (lookupD g.adj_out C2) C1)).flatMap (fun C2 =>
      (lookupD (lookupD g.adj_out C1) C2).flatMap (fun e1 =>
        (lookupD (lookupD g.adj_out C2) C1).map (fun e2 => (C1, C2, e1, e2)))))

/-- Method `Hypergraph.incoming_triad_motifs`: tuples `(C1, C2, C3, C2->C1, C3->C1)`.
Note the source draws `C2, C3` from `list(self.adj_in[C1].keys())` without
any tier filter. -/
def incoming_triad_motifs (g : Hypergraph α ν) : List (α × α × α × Info × Info) :=
  (keys g.hypernodes).flatMap (fun C1 =>
    (combs2 (keys (lookupD g.adj_in C1))).flatMap (fun p =>
      (lookupD (lookupD g.adj_out p.1) C1).flatMap (fun e1 =>
        (lookupD (lookupD g.adj_out p.2) C1).map (fun e2 =>
          (C1, p.1, p.2, e1, e2)))))

/-- Method `Hypergraph.outgoing_triad_motifs`: tuples `(C1, C2, C3, C1->C2, C1->C3)`.
Note the source draws `C2, C3` from `list(self.adj_out[C1].keys())` without
any tier filter. -/
def outgoing_triad_motifs (g : Hypergraph α ν) : List (α × α × α × Info × Info) :=
  (keys g.hypernodes).flatMap (fun C1 =>
    (combs2 (keys (lookupD g.adj_out C1))).flatMap (fun p =>
      (lookupD (lookupD g.adj_out C1) p.1).flatMap (fun e1 =>
        (lookupD (lookupD g.adj_out C1) p.2).map (fun e2 =>
          (C1, p.1, p.2, e1, e2)))))

/-- Concrete graph: nodes `a`, `b` and one `a -> b` edge instance. -/
def exG : Hypergraph String Unit :=
  (((Hypergraph.empty.add_node "a" none).add_node "b" none).add_edge "a" "b" none).getD
    Hypergraph.empty

/-- Concrete graph under construction: node `n`, hypernodes `A`, `B`, no
edges yet. -/
def exT0 : Hypergraph String Unit :=
  ((Hypergraph.empty.add_node "n" none).add_hypernode "A" [] none).add_hypernode
    "B" [] none

/-- Concrete graph: `exT0` plus the edge `n -> A`. -/
def exT1 : Hypergraph String Unit :=
  (exT0.add_edge "n" "A" none).getD Hypergraph.empty

/-- Concrete graph: node `n`, hypernodes `A`, `B`, edges `n -> A` and
`B -> A`. -/
def exT : Hypergraph String Unit :=
  (exT1.add_edge "B" "A" (some [("x", 1)])).getD Hypergraph.empty

/-- Concrete graph: two hypernodes `A`, `B`, no edges. -/
def exH : Hypergraph String Unit :=
  (Hypergraph.empty.add_hypernode "A" [] none).add_hypernode "B" [] none

/-- The states a `Hypergraph` object can be in after any sequence of
successful method calls on a fresh instance. -/
inductive Produced : Hypergraph α ν → Prop
  | empty : Produced Hypergraph.empty
  | add_node {g : Hypergraph α ν} (u : α) (i : Option ν) (h : Produced g) :
      Produced (g.add_node u i)
  | add_hypernode {g : Hypergraph α ν} (n : α) (ns : List α) (i : Option Info)
      (h : Produced g) : Produced (g.add_hypernode n ns i)
  | add_edge {g g' : Hypergraph α ν} {u v : α} {i : Option Info} (h : Produced g)
      (he : g.add_edge u v i = some g') : Produced g'

/-- Structural facts holding in every state the class can produce: every
registered vertex has entries in both adjacency dicts, and the inner
adjacency dicts have duplicate-free keys. -/
structure StoreWF (g : Hypergraph α ν) : Prop where
  out_total : ∀ u, hasVertex g u = true → (alookup g.adj_out u).isSome
  in_total : ∀ u, hasVertex g u = true → (alookup g.adj_in u).isSome
  out_inner_nodup : ∀ u m, alookup g.adj_out u = some m → (keys m).Nodup
  in_inner_nodup : ∀ u m, alookup g.adj_in u = some m → (keys m).Nodup

/-- The states reachable by successful method calls in which no vertex
identity is ever inserted twice (each `add_node` / `add_hypernode` id is
fresh). -/
inductive ReachableND : Hypergraph α ν → Prop
  | empty : ReachableND Hypergraph.empty
  | add_node {g : Hypergraph α ν} (u : α) (i : Option ν)
      (hf : hasVertex g u = false) (h : ReachableND g) : ReachableND (g.add_node u i)
  | add_hypernode {g : Hypergraph α ν} (n : α) (ns : List α) (i : Option Info)
      (hf : hasVertex g n = false) (h : ReachableND g) :
      ReachableND (g.add_hypernode n ns i)
  | add_edge {g g' : Hypergraph α ν} {u v : α} {i : Option Info}
      (h : ReachableND g) (he : g.add_edge u v i = some g') : ReachableND g'

/-- Invariant of duplicate-free reachable states: mirrored adjacency
(`adj_out[u][v]` and `adj_in[v][u]` hold identical instance lists),
duplicate-free vertex dicts, and adjacency entries only for registered
vertices. -/
structure WF (g : Hypergraph α ν) : Prop where
  sym : ∀ u v, lookup2 g.adj_out u v = lookup2 g.adj_in v u
  nodes_nd : (keys g.nodes).Nodup
  hyper_nd : (keys g.hypernodes).Nodup
  out_dom : ∀ u, hasVertex g u = false → alookup g.adj_out u = none
  in_dom : ∀ u, hasVertex g u = false → alookup g.adj_in u = none
  store : StoreWF g

/-- Length of a recorded edge-instance list, `0` when no entry exists. -/
def optLen (o : Option (List Info)) : Nat := (o.getD []).length

end Hypergraph

/-!
The statistic lambdas of `HyperConvo._degree_feats`, applied to integer
degree vectors.  Values are modelled by `FVal`: an exact rational, `+inf`,
or the `nan` sentinel; a statistic that raises (numpy `np.max`, `np.argmax`
on an empty array) returns `none`.  `np.mean` of an empty slice returns
`nan` (with a warning, not an exception).  The `entropy` entry of the
source's dict is not embedded: its value is transcendental and it raises
no exception on any integer vector, and no claim mentions it.
-/
/-- Value of a numpy floating statistic: an exact rational, positive
infinity, or nan. -/
inductive FVal where
  | num : ℚ → FVal
  | pinf : FVal
  | nan : FVal
deriving DecidableEq

/-- True division of two nonnegative integers as numpy performs it:
`0/0` is nan, `x/0` for `x > 0` is `+inf`, otherwise exact. -/
def npdiv (a b : Nat) : FVal :=
  if b = 0 then (if a = 0 then FVal.nan else FVal.pinf)
  else FVal.num ((a : ℚ) / (b : ℚ))

/-- Largest element (`np.max`) of a vector of nonnegative integers; `0` on
the empty vector, on which the callers below return `none` instead. -/
def natMax (l : List Nat) : Nat := l.foldl max 0

/-- First index attaining the maximum (`np.argmax`). -/
def argmaxIdx (l : List Nat) : Nat := l.findIdx (fun x => x == natMax l)

/-- Insert into a descending-sorted list, after equal elements. -/
def insDesc (x : Nat) : List Nat → List Nat
  | [] => [x]
  | y :: l => if x ≤ y then y :: insDesc x l else x :: y :: l

/-- The vector sorted in descending order. -/
def sortedDesc (l : List Nat) : List Nat := l.foldl (fun acc x => insDesc x acc) []

/-- Second-largest element counting multiplicity, `np.partition(l, -2)[-2]`;
callers only use it behind the `len(l) > 1` guard. -/
def secondLargest (l : List Nat) : Nat :=
  match sortedDesc l with
  | _ :: x :: _ => x
  | _ => 0

/-- Insert an (index, value) pair into a list sorted by descending value,
after equal values. -/
def insPairDesc (x : Nat × Nat) : List (Nat × Nat) → List (Nat × Nat)
  | [] => [x]
  | y :: l => if x.2 ≤ y.2 then y :: insPairDesc x l else x :: y :: l

/-- Index permutation sorting the vector by descending value, as
`(-l).argsort()` produces.  numpy's default quicksort leaves the order of
equal values unspecified; the embedding fixes the stable order.  The claims
below only rely on the guarded nan branch of its caller. -/
def argsortDesc (l : List Nat) : List Nat :=
  (l.enum.foldl (fun acc p => insPairDesc p acc) []).map Prod.fst

/-- Second entry of the descending argsort, `(-l).argsort()[1]`; callers
only use it behind the `len(l) > 1` guard. -/
def sndArgmaxIdx (l : List Nat) : Nat :=
  match argsortDesc l with
  | _ :: x :: _ => x
  | _ => 0

/-- Arithmetic mean of a nonempty integer vector. -/
def meanQ (l : List Nat) : ℚ := (l.sum : ℚ) / (l.length : ℚ)

/-- Statistic `max`: `np.max` raises `ValueError` on an empty vector. -/
def stat_max (l : List Nat) : Option FVal :=
  if l = [] then none else some (FVal.num (natMax l))

/-- Statistic `argmax`: `np.argmax` raises `ValueError` on an empty vector. -/
def stat_argmax (l : List Nat) : Option FVal :=
  if l = [] then none else some (FVal.num (argmaxIdx l))

/-- Statistic `norm.max`, `np.max(l) / np.sum(l)`: `np.max` raises on an
empty vector before the division is reached. -/
def stat_norm_max (l : List Nat) : Option FVal :=
  if l = [] then none else some (npdiv (natMax l) l.sum)

/-- Statistic `2nd-largest`: nan unless the vector has more than one
element. -/
def stat_2nd_largest (l : List Nat) : Option FVal :=
  some (if 1 < l.length then FVal.num (secondLargest l) else FVal.nan)

/-- Statistic `2nd-argmax`: nan unless the vector has more than one
element. -/
def stat_2nd_argmax (l : List Nat) : Option FVal :=
  some (if 1 < l.length then FVal.num (sndArgmaxIdx l) else FVal.nan)

/-- Statistic `norm.2nd-largest`, second largest divided by the sum, nan
unless the vector has more than one element. -/
def stat_norm_2nd_largest (l : List Nat) : Option FVal :=
  some (if 1 < l.length then npdiv (secondLargest l) l.sum else FVal.nan)

/-- Statistic `mean`: `np.mean` of an empty vector is nan (a warning, not
an exception). -/
def stat_mean (l : List Nat) : Option FVal :=
  some (if l = [] then FVal.nan else FVal.num (meanQ l))

/-- Statistic `mean-nonzero`, `np.mean(l[l != 0])`: nan when no entry is
nonzero. -/
def stat_mean_nonzero (l : List Nat) : Option FVal :=
  some (if l.filter (fun x => decide (x ≠ 0)) = [] then FVal.nan
    else FVal.num (meanQ (l.filter (fun x => decide (x ≠ 0)))))

/-- Statistic `prop-nonzero`, `np.mean(l != 0)`: nan on the empty vector. -/
def stat_prop_nonzero (l : List Nat) : Option FVal :=
  some (if l = [] then FVal.nan
    else FVal.num (((l.filter (fun x => decide (x ≠ 0))).length : ℚ) / (l.length : ℚ)))

/-- Statistic `prop-multiple`, `np.mean(l[l != 0] > 1)`: nan when no entry
is nonzero. -/
def stat_prop_multiple (l : List Nat) : Option FVal :=
  some (if l.filter (fun x => decide (x ≠ 0)) = [] then FVal.nan
    else FVal.num ((((l.filter (fun x => decide (x ≠ 0))).filter
        (fun x => decide (1 < x))).length : ℚ) /
      ((l.filter (fun x => decide (x ≠ 0))).length : ℚ)))

/-- Statistic `2nd-largest / max`: nan unless the vector has more than one
element; with more than one element, a `0/0` (all-zero vector) gives nan. -/
def stat_2nd_over_max (l : List Nat) : Option FVal :=
  some (if 1 < l.length then npdiv (secondLargest l) (natMax l) else FVal.nan)

/-- The `stat_funcs` dict of `HyperConvo._degree_feats` (minus `entropy`,
see the section comment). -/
def degree_stat_funcs : List (List Nat → Option FVal) :=
  [stat_max, stat_argmax, stat_norm_max, stat_2nd_largest, stat_2nd_argmax,
   stat_norm_2nd_largest, stat_mean, stat_mean_nonzero, stat_prop_nonzero,
   stat_prop_multiple, stat_2nd_over_max]

/-!
The graph builder `HyperConvo._make_hypergraph`, on the `uts` path (the
claims never exercise the corpus-extraction fallback).  An utterance
carries its id, timestamp, author identity, the author's metadata blob
(read through the keying user object as `u.meta`) and an optional reply
target; the node metadata stored by `G.add_node(ut.get("id"),
info=ut.__dict__)` is the utterance itself.  The source interleaves, in
one loop over the timestamp-sorted utterances, the accumulator updates and
the `add_node` calls; the two touch disjoint state, so the embedding runs
them as two folds over the same sorted list.  `speaker_target_pairs` is a
Python set: membership-based, so the embedding's insertion-ordered
duplicate-free list has the same content; none of the claims depends on
the set's iteration order.
-/
/-- A message as the builder consumes it. -/
structure Utt (α : Type) where
  id : α
  timestamp : Int
  user : α
  userMeta : Info
  reply_to : Option α
deriving DecidableEq

/-- Stable insertion into an ascending-by-timestamp list (after all
entries with timestamp at most the new one). -/
def insAscTs {α : Type} (u : Utt α) : List (Utt α) → List (Utt α)
  | [] => [u]
  | v :: l => if v.timestamp ≤ u.timestamp then v :: insAscTs u l else u :: v :: l

/-- Python's stable `sorted(uts.values(), key=lambda h: h.get("timestamp"))`. -/
def sortByTs {α : Type} (l : List (Utt α)) : List (Utt α) :=
  l.foldl (fun acc u => insAscTs u acc) []

/-- The four accumulators of the builder loop: `username_to_utt_ids` (with
the metadata of the keying user object), `reply_edges`,
`speaker_to_reply_tos`, `speaker_target_pairs`. -/
structure BuildAcc (α : Type) where
  users : List (α × (Info × List α))
  reply_edges : List (α × α)
  reply_tos : List (α × List α)
  pairs : List (α × α × Int)

/-- Registration of one utterance in `username_to_utt_ids`: create the
user's id set on first sight, then add the id. -/
def updateUsers {α : Type} [DecidableEq α] (users : List (α × (Info × List α)))
    (ut : Utt α) : List (α × (Info × List α)) :=
  match alookup users ut.user with
  | none => aset users ut.user (ut.userMeta, [ut.id])
  | some (m, ids) => aset users ut.user (m, insertNew ids ut.id)

/-- One iteration of the builder loop, accumulator part. -/
def collectStep {α : Type} [DecidableEq α] (uts : List (Utt α)) (excl : Option α)
    (acc : BuildAcc α) (ut : Utt α) : BuildAcc α :=
  if excl = some ut.id then acc
  else
    let users := updateUsers acc.users ut
    match ut.reply_to with
    | none => { acc with users := users }
    | some r =>
      match uts.find? (fun w => decide (w.id = r)) with
      | none => { acc with users := users }
      | some w =>
        if excl = some r then { acc with users := users }
        else
          { users := users
            reply_edges := acc.reply_edges ++ [(ut.id, r)]
            reply_tos := aset acc.reply_tos ut.user
              ((alookup acc.reply_tos ut.user).getD [] ++ [r])
            pairs := insertNew acc.pairs (ut.user, w.user, ut.timestamp) }

/-- The accumulators after the whole builder loop. -/
def buildAcc {α : Type} [DecidableEq α] (uts : List (Utt α)) (excl : Option α) :
    BuildAcc α :=
  (sortByTs uts).foldl (collectStep uts excl) ⟨[], [], [], []⟩

/-- The node insertions of the builder loop. -/
def addNodesPass {α : Type} [DecidableEq α] (uts : List (Utt α)) (excl : Option α) :
    Hypergraph α (Utt α) :=
  (sortByTs uts).foldl
    (fun g ut => if excl = some ut.id then g else g.add_node ut.id (some ut))
    Hypergraph.empty

/-- The hypernode insertions: one per accumulated user, with its id set
and the user object's metadata. -/
def hypernodesPass {α : Type} [DecidableEq α] (uts : List (Utt α))
    (excl : Option α) : Hypergraph α (Utt α) :=
  (buildAcc uts excl).users.foldl
    (fun (g : Hypergraph α (Utt α)) (p : α × (Info × List α)) =>
      g.add_hypernode p.1 p.2.2 (some p.2.1))
    (addNodesPass uts excl)

/-- The `reply_edges` pass: one Node-to-Node edge instance per recorded
reply, empty payload. -/
def replyEdgesPass {α : Type} [DecidableEq α] (uts : List (Utt α))
    (excl : Option α) : Option (Hypergraph α (Utt α)) :=
  (buildAcc uts excl).reply_edges.foldlM
    (fun (g : Hypergraph α (Utt α)) (p : α × α) => g.add_edge p.1 p.2 none)
    (hypernodesPass uts excl)

/-- The `speaker_to_reply_tos` pass: one Hypernode-to-Node edge instance
per recorded reply, empty payload. -/
def speakerReplyPass {α : Type} [DecidableEq α] (uts : List (Utt α))
    (excl : Option α) : Option (Hypergraph α (Utt α)) :=
  (replyEdgesPass uts excl).bind (fun g =>
    (buildAcc uts excl).reply_tos.foldlM
      (fun (g : Hypergraph α (Utt α)) (p : α × List α) =>
        p.2.foldlM (fun (g' : Hypergraph α (Utt α)) r =>
          g'.add_edge p.1 r none) g)
      g)

/-- `HyperConvo._make_hypergraph(uts=uts, exclude_id=excl)`: node pass,
hypernode pass, then the three edge passes (the last one inserts the
Hypernode-to-Hypernode edges with `{'timestamp': t}` payloads); a failing
`add_edge` aborts with `none`. -/
def make_hypergraph {α : Type} [DecidableEq α] (uts : List (Utt α))
    (excl : Option α) : Option (Hypergraph α (Utt α)) :=
  (speakerReplyPass uts excl).bind (fun g =>
    (buildAcc uts excl).pairs.foldlM
      (fun (g : Hypergraph α (Utt α)) (p : α × α × Int) =>
        g.add_edge p.1 p.2.1 (some [("timestamp", p.2.2)]))
      g)

/-- The `(author, reply-target author, timestamp)` triple a single
utterance contributes to `speaker_target_pairs`, when it contributes
one (exactly the loop's guard conditions). -/
def tripleOf {α : Type} [DecidableEq α] (uts : List (Utt α)) (excl : Option α)
    (ut : Utt α) : Option (α × α × Int) :=
  if excl = some ut.id then none
  else match ut.reply_to with
    | none => none
    | some r =>
      match uts.find? (fun w => decide (w.id = r)) with
      | none => none
      | some w => if excl = some r then none else some (ut.user, w.user, ut.timestamp)

/-- The multiset of triples the loop generates, duplicates included, in
loop order.  `speaker_target_pairs` holds exactly these, deduplicated. -/
def rawTriples {α : Type} [DecidableEq α] (uts : List (Utt α)) (excl : Option α) :
    List (α × α × Int) :=
  (sortByTs uts).filterMap (tripleOf uts excl)

/-- Concrete input for C8: `B` posts `m1`, `m2`; `A` replies to both with
the same timestamp `5`. -/
def exUts8 : List (Utt String) :=
  [⟨"m1", 0, "B", [], none⟩, ⟨"m2", 1, "B", [], none⟩,
   ⟨"r1", 5, "A", [], some "m1"⟩, ⟨"r2", 5, "A", [], some "m2"⟩]

/-- The graph built from `exUts8`. -/
def exG8 : Hypergraph String (Utt String) :=
  (make_hypergraph exUts8 none).getD Hypergraph.empty

/-- Concrete input for C10: `A` replies to their own message. -/
def exUts10 : List (Utt String) :=
  [⟨"m1", 0, "A", [], none⟩, ⟨"m2", 1, "A", [], some "m1"⟩]

/-- The graph built from `exUts10`. -/
def exG10 : Hypergraph String (Utt String) :=
  (make_hypergraph exUts10 none).getD Hypergraph.empty

section AListOps

variable {α : Type} {β : Type} [DecidableEq α]

@[simp] theorem alookup_nil (x : α) : alookup ([] : List (α × β)) x = none := rfl

@[simp] theorem alookup_cons (k : α) (v : β) (d : List (α × β)) (x : α) :
    alookup ((k, v) :: d) x = if k = x then some v else alookup d x := rfl

@[simp] theorem aset_nil (k : α) (v : β) : aset ([] : List (α × β)) k v = [(k, v)] := rfl

@[simp] theorem aset_cons (k' : α) (v' : β) (d : List (α × β)) (k : α) (v : β) :
    aset ((k', v') :: d) k v =
      if k' = k then (k, v) :: d else (k', v') :: aset d k v := rfl

@[simp] theorem keys_nil : keys ([] : List (α × β)) = [] := rfl

@[simp] theorem keys_cons (k : α) (v : β) (d : List (α × β)) :
    keys ((k, v) :: d) = k :: keys d := rfl

theorem alookup_aset (d : List (α × β)) (k : α) (v : β) (x : α) :
    alookup (aset d k v) x = if k = x then some v else alookup d x := by
  induction d with
  | nil => simp [aset]
  | cons p d ih =>
    obtain ⟨k', v'⟩ := p
    by_cases hk : k' = k
    · subst hk
      by_cases hx : k' = x <;> simp [aset, hx]
    · by_cases hx : k' = x
      · subst hx
        have hkx : ¬ k = k' := fun h => hk h.symm
        rw [aset_cons, if_neg hk, alookup_cons, if_pos rfl, alookup_cons,
          if_pos rfl, if_neg hkx]
      · simp [aset, hk, hx, ih]

@[simp] theorem amem_nil (x : α) : amem ([] : List (α × β)) x = false := rfl

theorem amem_cons (k : α) (v : β) (d : List (α × β)) (x : α) :
    amem ((k, v) :: d) x = if k = x then true else amem d x := by
  by_cases h : k = x <;> simp [amem, h]

theorem amem_iff_mem_keys (d : List (α × β)) (x : α) :
    amem d x = true ↔ x ∈ keys d := by
  induction d with
  | nil => simp
  | cons p d ih =>
    obtain ⟨k, v⟩ := p
    rw [amem_cons, keys_cons, List.mem_cons]
    by_cases h : k = x
    · simp [h]
    · rw [if_neg h, ih]
      constructor
      · exact fun hx => Or.inr hx
      · rintro (hx | hx)
        · exact absurd hx.symm h
        · exact hx

theorem amem_aset (d : List (α × β)) (k : α) (v : β) (x : α) :
    amem (aset d k v) x = if k = x then true else amem d x := by
  by_cases h : k = x <;> simp [amem, alookup_aset, h]

theorem keys_aset_of_amem (d : List (α × β)) (k : α) (v : β) (h : amem d k = true) :
    keys (aset d k v) = keys d := by
  induction d with
  | nil => simp [amem] at h
  | cons p d ih =>
    obtain ⟨k', v'⟩ := p
    rw [amem_cons] at h
    by_cases hk : k' = k
    · simp [aset, hk]
    · rw [if_neg hk] at h
      rw [aset_cons, if_neg hk, keys_cons, keys_cons, ih h]

theorem aset_of_not_amem (d : List (α × β)) (k : α) (v : β) (h : amem d k = false) :
    aset d k v = d ++ [(k, v)] := by
  induction d with
  | nil => simp
  | cons p d ih =>
    obtain ⟨k', v'⟩ := p
    rw [amem_cons] at h
    by_cases hk : k' = k
    · simp [hk] at h
    · rw [if_neg hk] at h
      simp [aset, hk, ih h]

theorem alookup_eq_none_of_not_mem_keys (d : List (α × β)) (x : α) (h : x ∉ keys d) :
    alookup d x = none := by
  induction d with
  | nil => rfl
  | cons p d ih =>
    obtain ⟨k, v⟩ := p
    rw [keys_cons, List.mem_cons] at h
    push_neg at h
    rw [alookup_cons, if_neg (fun hk => h.1 hk.symm)]
    exact ih h.2

end AListOps

theorem lookup2_eq {α : Type} [DecidableEq α] (d : List (α × List (α × List Info)))
    (a b : α) : lookup2 d a b = alookup (lookupD d a) b := by
  unfold lookup2 lookupD
  cases alookup d a <;> simp

namespace Hypergraph

variable {α : Type} [DecidableEq α] {ν : Type}

theorem nodup_keys_aset {α β : Type} [DecidableEq α] (d : List (α × β)) (k : α)
    (v : β) (h : (keys d).Nodup) : (keys (aset d k v)).Nodup := by
  by_cases hm : amem d k = true
  · rw [keys_aset_of_amem d k v hm]
    exact h
  · rw [aset_of_not_amem d k v (by revert hm; cases amem d k <;> simp)]
    rw [show keys (d ++ [(k, v)]) = keys d ++ [k] by
      unfold keys; rw [List.map_append]; rfl]
    rw [List.nodup_append]
    refine ⟨h, List.nodup_singleton k, ?_⟩
    intro x hx hk
    rw [List.mem_singleton] at hk
    subst hk
    rw [← amem_iff_mem_keys] at hx
    exact hm hx

theorem add_edge_inv {g g' : Hypergraph α ν} {u v : α} {i : Option Info}
    (h : g.add_edge u v i = some g') :
    hasVertex g u = true ∧ hasVertex g v = true ∧
    (amem g.hypernodes u && amem g.hypernodes v && emptyInfo i) = false ∧
    ∃ mo mi, alookup g.adj_out u = some mo ∧ alookup g.adj_in v = some mi ∧
      g' = { g with
        adj_out := aset g.adj_out u (aset mo v ((alookup mo v).getD [] ++ [i.getD []]))
        adj_in := aset g.adj_in v (aset mi u ((alookup mi u).getD [] ++ [i.getD []])) } := by
  unfold add_edge at h
  split_ifs at h with h1 h2 h3
  have h1' : hasVertex g u = true := by revert h1; cases hasVertex g u <;> simp
  have h2' : hasVertex g v = true := by revert h2; cases hasVertex g v <;> simp
  have h3' : (amem g.hypernodes u && amem g.hypernodes v && emptyInfo i) = false := by
    revert h3
    cases amem g.hypernodes u && amem g.hypernodes v && emptyInfo i <;> simp
  refine ⟨h1', h2', h3', ?_⟩
  cases hmo : alookup g.adj_out u with
  | none => rw [hmo] at h; cases hmi : alookup g.adj_in v <;> rw [hmi] at h <;> simp at h
  | some mo =>
    cases hmi : alookup g.adj_in v with
    | none => rw [hmo, hmi] at h; simp at h
    | some mi =>
      rw [hmo, hmi] at h
      simp only [Option.some.injEq] at h
      exact ⟨mo, mi, rfl, rfl, h.symm⟩

@[simp] theorem add_node_nodes (g : Hypergraph α ν) (u : α) (i : Option ν) :
    (g.add_node u i).nodes = aset g.nodes u i := rfl

@[simp] theorem add_node_hypernodes (g : Hypergraph α ν) (u : α) (i : Option ν) :
    (g.add_node u i).hypernodes = g.hypernodes := rfl

@[simp] theorem add_node_adj_out (g : Hypergraph α ν) (u : α) (i : Option ν) :
    (g.add_node u i).adj_out = aset g.adj_out u [] := rfl

@[simp] theorem add_node_adj_in (g : Hypergraph α ν) (u : α) (i : Option ν) :
    (g.add_node u i).adj_in = aset g.adj_in u [] := rfl

@[simp] theorem add_hypernode_nodes (g : Hypergraph α ν) (n : α) (ns : List α)
    (i : Option Info) : (g.add_hypernode n ns i).nodes = g.nodes := rfl

@[simp] theorem add_hypernode_hypernodes (g : Hypergraph α ν) (n : α) (ns : List α)
    (i : Option Info) :
    (g.add_hypernode n ns i).hypernodes = aset g.hypernodes n (ns.foldl insertNew []) := rfl

@[simp] theorem add_hypernode_adj_out (g : Hypergraph α ν) (n : α) (ns : List α)
    (i : Option Info) : (g.add_hypernode n ns i).adj_out = aset g.adj_out n [] := rfl

@[simp] theorem add_hypernode_adj_in (g : Hypergraph α ν) (n : α) (ns : List α)
    (i : Option Info) : (g.add_hypernode n ns i).adj_in = aset g.adj_in n [] := rfl

theorem hasVertex_add_node (g : Hypergraph α ν) (u : α) (i : Option ν) (x : α) :
    hasVertex (g.add_node u i) x = (if u = x then true else hasVertex g x) := by
  unfold hasVertex
  rw [add_node_nodes, add_node_hypernodes, amem_aset]
  by_cases h : u = x <;> simp [h]

theorem hasVertex_add_hypernode (g : Hypergraph α ν) (n : α) (ns : List α)
    (i : Option Info) (x : α) :
    hasVertex (g.add_hypernode n ns i) x = (if n = x then true else hasVertex g x) := by
  unfold hasVertex
  rw [add_hypernode_nodes, add_hypernode_hypernodes, amem_aset]
  by_cases h : n = x <;> simp [h]

theorem storeWF_empty : StoreWF (Hypergraph.empty : Hypergraph α ν) := by
  constructor
  · intro u hu; simp [hasVertex, Hypergraph.empty] at hu
  · intro u hu; simp [hasVertex, Hypergraph.empty] at hu
  · intro u m hm; simp [Hypergraph.empty] at hm
  · intro u m hm; simp [Hypergraph.empty] at hm

theorem storeWF_add_node {g : Hypergraph α ν} (ih : StoreWF g) (u : α)
    (i : Option ν) : StoreWF (g.add_node u i) := by
  constructor
  · intro x hx
    rw [hasVertex_add_node] at hx
    rw [add_node_adj_out, alookup_aset]
    by_cases hux : u = x
    · simp [hux]
    · rw [if_neg hux] at hx ⊢
      exact ih.out_total x hx
  · intro x hx
    rw [hasVertex_add_node] at hx
    rw [add_node_adj_in, alookup_aset]
    by_cases hux : u = x
    · simp [hux]
    · rw [if_neg hux] at hx ⊢
      exact ih.in_total x hx
  · intro x m hm
    rw [add_node_adj_out, alookup_aset] at hm
    by_cases hux : u = x
    · rw [if_pos hux] at hm
      simp only [Option.some.injEq] at hm
      subst hm
      simp
    · rw [if_neg hux] at hm
      exact ih.out_inner_nodup x m hm
  · intro x m hm
    rw [add_node_adj_in, alookup_aset] at hm
    by_cases hux : u = x
    · rw [if_pos hux] at hm
      simp only [Option.some.injEq] at hm
      subst hm
      simp
    · rw [if_neg hux] at hm
      exact ih.in_inner_nodup x m hm

theorem storeWF_add_hypernode {g : Hypergraph α ν} (ih : StoreWF g) (n : α)
    (ns : List α) (i : Option Info) : StoreWF (g.add_hypernode n ns i) := by
  constructor
  · intro x hx
    rw [hasVertex_add_hypernode] at hx
    rw [add_hypernode_adj_out, alookup_aset]
    by_cases hux : n = x
    · simp [hux]
    · rw [if_neg hux] at hx ⊢
      exact ih.out_total x hx
  · intro x hx
    rw [hasVertex_add_hypernode] at hx
    rw [add_hypernode_adj_in, alookup_aset]
    by_cases hux : n = x
    · simp [hux]
    · rw [if_neg hux] at hx ⊢
      exact ih.in_total x hx
  · intro x m hm
    rw [add_hypernode_adj_out, alookup_aset] at hm
    by_cases hux : n = x
    · rw [if_pos hux] at hm
      simp only [Option.some.injEq] at hm
      subst hm
      simp
    · rw [if_neg hux] at hm
      exact ih.out_inner_nodup x m hm
  · intro x m hm
    rw [add_hypernode_adj_in, alookup_aset] at hm
    by_cases hux : n = x
    · rw [if_pos hux] at hm
      simp only [Option.some.injEq] at hm
      subst hm
      simp
    · rw [if_neg hux] at hm
      exact ih.in_inner_nodup x m hm

theorem storeWF_add_edge {g g' : Hypergraph α ν} {u v : α} {i : Option Info}
    (ih : StoreWF g) (he : g.add_edge u v i = some g') : StoreWF g' := by
  obtain ⟨h1, h2, h3, mo, mi, hmo, hmi, rfl⟩ := add_edge_inv he
  constructor
  · intro x hx
    rw [alookup_aset]
    by_cases hux : u = x
    · simp [hux]
    · rw [if_neg hux]
      exact ih.out_total x hx
  · intro x hx
    rw [alookup_aset]
    by_cases hvx : v = x
    · simp [hvx]
    · rw [if_neg hvx]
      exact ih.in_total x hx
  · intro x m hm
    rw [alookup_aset] at hm
    by_cases hux : u = x
    · rw [if_pos hux] at hm
      simp only [Option.some.injEq] at hm
      subst hm
      exact nodup_keys_aset _ _ _ (ih.out_inner_nodup u mo hmo)
    · rw [if_neg hux] at hm
      exact ih.out_inner_nodup x m hm
  · intro x m hm
    rw [alookup_aset] at hm
    by_cases hvx : v = x
    · rw [if_pos hvx] at hm
      simp only [Option.some.injEq] at hm
      subst hm
      exact nodup_keys_aset _ _ _ (ih.in_inner_nodup v mi hmi)
    · rw [if_neg hvx] at hm
      exact ih.in_inner_nodup x m hm

theorem Produced.storeWF {g : Hypergraph α ν} (h : Produced g) : StoreWF g := by
  induction h with
  | empty => exact storeWF_empty
  | add_node u i hp ih => exact storeWF_add_node ih u i
  | add_hypernode n ns i hp ih => exact storeWF_add_hypernode ih n ns i
  | add_edge hp he ih => exact storeWF_add_edge ih he

theorem lookup2_aset_nil {α : Type} [DecidableEq α]
    (d : List (α × List (α × List Info))) (k a b : α) :
    lookup2 (aset d k []) a b = if k = a then none else lookup2 d a b := by
  unfold lookup2
  rw [alookup_aset]
  by_cases h : k = a <;> simp [h]

theorem lookup2_add_edge_out {g g' : Hypergraph α ν} {u v : α} {i : Option Info}
    (he : g.add_edge u v i = some g') (a b : α) :
    lookup2 g'.adj_out a b =
      if u = a ∧ v = b then some ((lookup2 g.adj_out u v).getD [] ++ [i.getD []])
      else lookup2 g.adj_out a b := by
  obtain ⟨h1, h2, h3, mo, mi, hmo, hmi, rfl⟩ := add_edge_inv he
  show lookup2 (aset g.adj_out u (aset mo v ((alookup mo v).getD [] ++ [i.getD []]))) a b = _
  unfold lookup2
  rw [alookup_aset]
  by_cases ha : u = a
  · rw [if_pos ha, Option.some_bind, alookup_aset]
    by_cases hb : v = b
    · rw [if_pos hb, if_pos ⟨ha, hb⟩, hmo, Option.some_bind]
    · rw [if_neg hb, if_neg (fun hc => hb hc.2), ← ha, hmo, Option.some_bind]
  · rw [if_neg ha, if_neg (fun hc => ha hc.1)]

theorem lookup2_add_edge_in {g g' : Hypergraph α ν} {u v : α} {i : Option Info}
    (he : g.add_edge u v i = some g') (a b : α) :
    lookup2 g'.adj_in a b =
      if v = a ∧ u = b then some ((lookup2 g.adj_in v u).getD [] ++ [i.getD []])
      else lookup2 g.adj_in a b := by
  obtain ⟨h1, h2, h3, mo, mi, hmo, hmi, rfl⟩ := add_edge_inv he
  show lookup2 (aset g.adj_in v (aset mi u ((alookup mi u).getD [] ++ [i.getD []]))) a b = _
  unfold lookup2
  rw [alookup_aset]
  by_cases ha : v = a
  · rw [if_pos ha, Option.some_bind, alookup_aset]
    by_cases hb : u = b
    · rw [if_pos hb, if_pos ⟨ha, hb⟩, hmi, Option.some_bind]
    · rw [if_neg hb, if_neg (fun hc => hb hc.2), ← ha, hmi, Option.some_bind]
  · rw [if_neg ha, if_neg (fun hc => ha hc.1)]

theorem add_edge_nodes {g g' : Hypergraph α ν} {u v : α} {i : Option Info}
    (he : g.add_edge u v i = some g') : g'.nodes = g.nodes := by
  obtain ⟨_, _, _, mo, mi, _, _, rfl⟩ := add_edge_inv he
  rfl

theorem add_edge_hypernodes {g g' : Hypergraph α ν} {u v : α} {i : Option Info}
    (he : g.add_edge u v i = some g') : g'.hypernodes = g.hypernodes := by
  obtain ⟨_, _, _, mo, mi, _, _, rfl⟩ := add_edge_inv he
  rfl

theorem hasVertex_add_edge {g g' : Hypergraph α ν} {u v : α} {i : Option Info}
    (he : g.add_edge u v i = some g') (x : α) : hasVertex g' x = hasVertex g x := by
  unfold hasVertex
  rw [add_edge_nodes he, add_edge_hypernodes he]

theorem wf_empty : WF (Hypergraph.empty : Hypergraph α ν) := by
  refine ⟨?_, ?_, ?_, ?_, ?_, storeWF_empty⟩
  · intro u v; rfl
  · simp [Hypergraph.empty]
  · simp [Hypergraph.empty]
  · intro u _; rfl
  · intro u _; rfl

theorem wf_add_node {g : Hypergraph α ν} (hw : WF g) {u : α} (i : Option ν)
    (hf : hasVertex g u = false) : WF (g.add_node u i) := by
  have hnm : amem g.nodes u = false := by
    revert hf; unfold hasVertex; cases amem g.nodes u <;> simp
  refine ⟨?_, ?_, hw.hyper_nd, ?_, ?_, storeWF_add_node hw.store u i⟩
  · intro a b
    rw [add_node_adj_out, add_node_adj_in, lookup2_aset_nil, lookup2_aset_nil]
    by_cases ha : u = a
    · rw [if_pos ha]
      by_cases hb : u = b
      · rw [if_pos hb]
      · rw [if_neg hb]
        have h1 : lookup2 g.adj_out u b = none := by
          unfold lookup2; rw [hw.out_dom u hf]; rfl
        rw [← ha, ← hw.sym u b, h1]
    · rw [if_neg ha]
      by_cases hb : u = b
      · rw [if_pos hb]
        have h1 : lookup2 g.adj_in u a = none := by
          unfold lookup2; rw [hw.in_dom u hf]; rfl
        rw [← hb, hw.sym a u, h1]
      · rw [if_neg hb]
        exact hw.sym a b
  · rw [add_node_nodes]
    exact nodup_keys_aset _ _ _ hw.nodes_nd
  · intro x hx
    rw [hasVertex_add_node] at hx
    by_cases hux : u = x
    · rw [if_pos hux] at hx; simp at hx
    · rw [if_neg hux] at hx
      rw [add_node_adj_out, alookup_aset, if_neg hux]
      exact hw.out_dom x hx
  · intro x hx
    rw [hasVertex_add_node] at hx
    by_cases hux : u = x
    · rw [if_pos hux] at hx; simp at hx
    · rw [if_neg hux] at hx
      rw [add_node_adj_in, alookup_aset, if_neg hux]
      exact hw.in_dom x hx

theorem wf_add_hypernode {g : Hypergraph α ν} (hw : WF g) {n : α} (ns : List α)
    (i : Option Info) (hf : hasVertex g n = false) : WF (g.add_hypernode n ns i) := by
  have hnm : amem g.hypernodes n = false := by
    revert hf; unfold hasVertex; cases amem g.hypernodes n <;> simp
  refine ⟨?_, hw.nodes_nd, ?_, ?_, ?_, storeWF_add_hypernode hw.store n ns i⟩
  · intro a b
    rw [add_hypernode_adj_out, add_hypernode_adj_in, lookup2_aset_nil, lookup2_aset_nil]
    by_cases ha : n = a
    · rw [if_pos ha]
      by_cases hb : n = b
      · rw [if_pos hb]
      · rw [if_neg hb]
        have h1 : lookup2 g.adj_out n b = none := by
          unfold lookup2; rw [hw.out_dom n hf]; rfl
        rw [← ha, ← hw.sym n b, h1]
    · rw [if_neg ha]
      by_cases hb : n = b
      · rw [if_pos hb]
        have h1 : lookup2 g.adj_in n a = none := by
          unfold lookup2; rw [hw.in_dom n hf]; rfl
        rw [← hb, hw.sym a n, h1]
      · rw [if_neg hb]
        exact hw.sym a b
  · rw [add_hypernode_hypernodes]
    exact nodup_keys_aset _ _ _ hw.hyper_nd
  · intro x hx
    rw [hasVertex_add_hypernode] at hx
    by_cases hux : n = x
    · rw [if_pos hux] at hx; simp at hx
    · rw [if_neg hux] at hx
      rw [add_hypernode_adj_out, alookup_aset, if_neg hux]
      exact hw.out_dom x hx
  · intro x hx
    rw [hasVertex_add_hypernode] at hx
    by_cases hux : n = x
    · rw [if_pos hux] at hx; simp at hx
    · rw [if_neg hux] at hx
      rw [add_hypernode_adj_in, alookup_aset, if_neg hux]
      exact hw.in_dom x hx

theorem wf_add_edge {g g' : Hypergraph α ν} {u v : α} {i : Option Info}
    (hw : WF g) (he : g.add_edge u v i = some g') : WF g' := by
  have hnodes := add_edge_nodes he
  have hhyper := add_edge_hypernodes he
  have h1 := (add_edge_inv he).1
  have h2 := (add_edge_inv he).2.1
  refine ⟨?_, ?_, ?_, ?_, ?_, storeWF_add_edge hw.store he⟩
  · intro a b
    rw [lookup2_add_edge_out he, lookup2_add_edge_in he]
    by_cases hab : u = a ∧ v = b
    · rw [if_pos hab, if_pos ⟨hab.2, hab.1⟩, hw.sym u v, hab.1, hab.2]
    · rw [if_neg hab, if_neg (fun hc => hab ⟨hc.2, hc.1⟩)]
      exact hw.sym a b
  · rw [hnodes]; exact hw.nodes_nd
  · rw [hhyper]; exact hw.hyper_nd
  · intro x hx
    rw [hasVertex_add_edge he] at hx
    obtain ⟨_, _, _, mo, mi, hmo, hmi, rfl⟩ := add_edge_inv he
    rw [alookup_aset, if_neg (fun hux => by rw [hux] at h1; rw [h1] at hx; cases hx)]
    exact hw.out_dom x hx
  · intro x hx
    rw [hasVertex_add_edge he] at hx
    obtain ⟨_, _, _, mo, mi, hmo, hmi, rfl⟩ := add_edge_inv he
    rw [alookup_aset, if_neg (fun hvx => by rw [hvx] at h2; rw [h2] at hx; cases hx)]
    exact hw.in_dom x hx

theorem ReachableND.wf {g : Hypergraph α ν} (h : ReachableND g) : WF g := by
  induction h with
  | empty => exact wf_empty
  | add_node u i hf hp ih => exact wf_add_node ih i hf
  | add_hypernode n ns i hf hp ih => exact wf_add_hypernode ih ns i hf
  | add_edge hp he ih => exact wf_add_edge ih he

theorem sum_map_add {β : Type} (T : List β) (f f' : β → Nat) :
    (T.map (fun v => f v + f' v)).sum = (T.map f).sum + (T.map f').sum := by
  induction T with
  | nil => rfl
  | cons t T ih =>
    rw [List.map_cons, List.sum_cons, List.map_cons, List.sum_cons,
      List.map_cons, List.sum_cons, ih]
    omega

theorem sum_map_zero {β : Type} (T : List β) : (T.map (fun _ => 0)).sum = 0 := by
  induction T with
  | nil => rfl
  | cons t T ih => rw [List.map_cons, List.sum_cons, ih]

theorem sum_sum_swap {β : Type} (S T : List β) (f : β → β → Nat) :
    (S.map (fun u => (T.map (fun v => f u v)).sum)).sum
      = (T.map (fun v => (S.map (fun u => f u v)).sum)).sum := by
  induction S with
  | nil => rw [List.map_nil, List.sum_nil, ← sum_map_zero T]; rfl
  | cons s S ih =>
    rw [List.map_cons, List.sum_cons, ih, ← sum_map_add]
    rfl

theorem sum_map_ite_of_apply_zero {β : Type} [DecidableEq β] (T : List β)
    (hT : T.Nodup) (k : β) (a : Nat) (f : β → Nat) (hfk : f k = 0) :
    (T.map (fun v => if k = v then a else f v)).sum
      = (if k ∈ T then a else 0) + (T.map f).sum := by
  induction T with
  | nil => simp
  | cons t T ih =>
    rw [List.nodup_cons] at hT
    rw [List.map_cons, List.sum_cons, List.map_cons, List.sum_cons, ih hT.2]
    by_cases hk : k = t
    · subst hk
      rw [if_pos rfl, if_pos (List.mem_cons_self k T), if_neg hT.1, hfk]
    · rw [if_neg hk]
      by_cases hkT : k ∈ T
      · rw [if_pos hkT, if_pos (List.mem_cons_of_mem t hkT)]
        omega
      · rw [if_neg hkT, if_neg (by
          rw [List.mem_cons]
          rintro (h | h)
          · exact hk h
          · exact hkT h)]
        omega

theorem sum_filter_eq_sum_lookup {α : Type} [DecidableEq α]
    (m : List (α × List Info)) (p : α → Bool) (T : List α)
    (hnd : (keys m).Nodup) (hT : T.Nodup) (hpt : ∀ x, p x = true ↔ x ∈ T) :
    ((m.filter (fun q => p q.1)).map (fun q => q.2.length)).sum
      = (T.map (fun v => optLen (alookup m v))).sum := by
  induction m with
  | nil =>
    rw [List.filter_nil, List.map_nil, List.sum_nil]
    rw [show (T.map (fun v => optLen (alookup ([] : List (α × List Info)) v)))
        = T.map (fun _ => 0) from rfl, sum_map_zero]
  | cons q m ih =>
    obtain ⟨k, lst⟩ := q
    rw [keys_cons, List.nodup_cons] at hnd
    have hfk : optLen (alookup m k) = 0 := by
      rw [alookup_eq_none_of_not_mem_keys m k hnd.1]
      rfl
    have hrhs : (T.map (fun v => optLen (alookup ((k, lst) :: m) v))).sum
        = (if k ∈ T then lst.length else 0)
          + (T.map (fun v => optLen (alookup m v))).sum := by
      rw [show T.map (fun v => optLen (alookup ((k, lst) :: m) v))
          = T.map (fun v => if k = v then lst.length else optLen (alookup m v)) by
        apply List.map_congr_left
        intro v _
        rw [alookup_cons]
        by_cases hkv : k = v
        · rw [if_pos hkv, if_pos hkv]; rfl
        · rw [if_neg hkv, if_neg hkv]]
      exact sum_map_ite_of_apply_zero T hT k lst.length _ hfk
    rw [hrhs, List.filter_cons]
    by_cases hp : p k = true
    · rw [if_pos (by simpa using hp), List.map_cons, List.sum_cons, ih hnd.2,
        if_pos ((hpt k).mp hp)]
    · rw [if_neg (by simpa using hp), ih hnd.2,
        if_neg (fun hmem => hp ((hpt k).mpr hmem))]
      omega

theorem tierKeys_nodup {g : Hypergraph α ν} (hw : WF g) (b : Bool) :
    (g.tierKeys b).Nodup := by
  cases b
  · exact hw.nodes_nd
  · exact hw.hyper_nd

theorem tierMem_iff {g : Hypergraph α ν} (b : Bool) (x : α) :
    g.tierMem b x = true ↔ x ∈ g.tierKeys b := by
  cases b
  · exact amem_iff_mem_keys g.nodes x
  · exact amem_iff_mem_keys g.hypernodes x

theorem lookupD_keys_nodup {g : Hypergraph α ν} (hs : StoreWF g) (u : α) :
    (keys (lookupD g.adj_out u)).Nodup ∧ (keys (lookupD g.adj_in u)).Nodup := by
  constructor
  · cases ho : alookup g.adj_out u with
    | none => rw [lookupD, ho]; simp
    | some m => rw [lookupD, ho]; exact hs.out_inner_nodup u m ho
  · cases hi : alookup g.adj_in u with
    | none => rw [lookupD, hi]; simp
    | some m => rw [lookupD, hi]; exact hs.in_inner_nodup u m hi

theorem degree_sum_eq {g : Hypergraph α ν} (hw : WF g) (t1 t2 : Bool) :
    (g.outdegrees t1 t2).sum = (g.indegrees t1 t2).sum := by
  unfold outdegrees indegrees
  have hout : (g.tierKeys t1).map (fun u =>
        (((lookupD g.adj_out u).filter (fun p => g.tierMem t2 p.1)).map
          (fun p => p.2.length)).sum)
      = (g.tierKeys t1).map (fun u =>
        ((g.tierKeys t2).map (fun v => optLen (lookup2 g.adj_out u v))).sum) := by
    apply List.map_congr_left
    intro u _
    rw [sum_filter_eq_sum_lookup (lookupD g.adj_out u) (g.tierMem t2)
      (g.tierKeys t2) (lookupD_keys_nodup hw.store u).1 (tierKeys_nodup hw t2)
      (tierMem_iff t2)]
    apply congrArg
    apply List.map_congr_left
    intro v _
    rw [lookup2_eq]
  have hin : (g.tierKeys t2).map (fun v =>
        (((lookupD g.adj_in v).filter (fun p => g.tierMem t1 p.1)).map
          (fun p => p.2.length)).sum)
      = (g.tierKeys t2).map (fun v =>
        ((g.tierKeys t1).map (fun u => optLen (lookup2 g.adj_in v u))).sum) := by
    apply List.map_congr_left
    intro v _
    rw [sum_filter_eq_sum_lookup (lookupD g.adj_in v) (g.tierMem t1)
      (g.tierKeys t1) (lookupD_keys_nodup hw.store v).2 (tierKeys_nodup hw t1)
      (tierMem_iff t1)]
    apply congrArg
    apply List.map_congr_left
    intro u _
    rw [lookup2_eq]
  rw [hout, hin, sum_sum_swap]
  apply congrArg
  apply List.map_congr_left
  intro v _
  apply congrArg
  apply List.map_congr_left
  intro u _
  rw [hw.sym u v]

/-- C3 counterexample.  All three operations are total or checked, and every
call in the sequence node(a), node(b), edge(a, b), node(b) succeeds; the
final duplicate `add_node` resets `adj_in[b]`, after which the Node-to-Node
outdegree vector sums to 1 while the indegree vector sums to 0. -/
theorem degree_sums_dup_add_node_cex :
    (((Hypergraph.empty.add_node "a" none).add_node "b"
        (none : Option Unit)).add_edge "a" "b" none) = some exG ∧
    ((exG.add_node "b" none).outdegrees false false).sum = 1 ∧
    ((exG.add_node "b" none).indegrees false false).sum = 0 :=
  ⟨by rfl, by rfl, by rfl⟩

/-- C3 (amended).  For every Hypergraph reachable by successful operations
in which no vertex identity is inserted twice, and every tier pair, the
outdegree vector and the indegree vector have equal sums.  (A duplicate
`add_node` / `add_hypernode` — which also succeeds — can break the
equality by resetting one side's adjacency dict.) -/
theorem degree_sums_balanced {g : Hypergraph α ν} (h : ReachableND g)
    (t1 t2 : Bool) : (g.outdegrees t1 t2).sum = (g.indegrees t1 t2).sum :=
  degree_sum_eq h.wf t1 t2

/-- Witness for the amended C3 theorem at the concrete reachable graph
`exT`. -/
theorem degree_sums_balanced_witness :
    ((exT.outdegrees false false).sum = (exT.indegrees false false).sum ∧
     (exT.outdegrees true false).sum = (exT.indegrees true false).sum) ∧
    ((exT.outdegrees false true).sum = (exT.indegrees false true).sum ∧
     (exT.outdegrees true true).sum = (exT.indegrees true true).sum) := by
  have h0 : ReachableND (Hypergraph.empty : Hypergraph String Unit) :=
    ReachableND.empty
  have h1 := ReachableND.add_node "n" (none : Option Unit) (by rfl) h0
  have h2 := ReachableND.add_hypernode "A" [] none (by rfl) h1
  have h3 : ReachableND exT0 := ReachableND.add_hypernode "B" [] none (by rfl) h2
  have h4 : ReachableND exT1 := ReachableND.add_edge h3
    (show exT0.add_edge "n" "A" none = some exT1 by rfl)
  have h5 : ReachableND exT := ReachableND.add_edge h4
    (show exT1.add_edge "B" "A" (some [("x", 1)]) = some exT by rfl)
  exact ⟨⟨degree_sums_balanced h5 false false, degree_sums_balanced h5 true false⟩,
    ⟨degree_sums_balanced h5 false true, degree_sums_balanced h5 true true⟩⟩

/-- C9.  After any duplicate-free sequence of successful operations, the
edge-instance list stored under `v` in `adj_out[u]` is identical — same
entries, same order, same presence — to the list stored under `u` in
`adj_in[v]`. -/
theorem adjacency_mirrored {g : Hypergraph α ν} (h : ReachableND g) (u v : α) :
    lookup2 g.adj_out u v = lookup2 g.adj_in v u :=
  h.wf.sym u v

/-- Witness for C9 at the concrete reachable graph `exT`. -/
theorem adjacency_mirrored_witness :
    lookup2 exT.adj_out "B" "A" = lookup2 exT.adj_in "A" "B" ∧
    lookup2 exT.adj_out "B" "A" = some [[("x", 1)]] := by
  have h0 : ReachableND (Hypergraph.empty : Hypergraph String Unit) :=
    ReachableND.empty
  have h1 := ReachableND.add_node "n" (none : Option Unit) (by rfl) h0
  have h2 := ReachableND.add_hypernode "A" [] none (by rfl) h1
  have h3 : ReachableND exT0 := ReachableND.add_hypernode "B" [] none (by rfl) h2
  have h4 : ReachableND exT1 := ReachableND.add_edge h3
    (show exT0.add_edge "n" "A" none = some exT1 by rfl)
  have h5 : ReachableND exT := ReachableND.add_edge h4
    (show exT1.add_edge "B" "A" (some [("x", 1)]) = some exT by rfl)
  exact ⟨adjacency_mirrored h5 "B" "A", rfl⟩

theorem alookup_filter {α β : Type} [DecidableEq α] {l : List (α × β)}
    {p : α × β → Bool} {k : α} {v : β} (hl : alookup l k = some v)
    (hp : p (k, v) = true) : alookup (l.filter p) k = some v := by
  induction l with
  | nil => simp at hl
  | cons q l ih =>
    obtain ⟨k', v'⟩ := q
    rw [alookup_cons] at hl
    by_cases hk : k' = k
    · subst hk
      rw [if_pos rfl] at hl
      simp only [Option.some.injEq] at hl
      subst hl
      rw [List.filter_cons, if_pos hp, alookup_cons, if_pos rfl]
    · rw [if_neg hk] at hl
      rw [List.filter_cons]
      by_cases hq : p (k', v') = true
      · rw [if_pos hq, alookup_cons, if_neg hk]
        exact ih hl
      · rw [if_neg (by simpa using hq)]
        exact ih hl

theorem mem_combs2 {β : Type} {l : List β} {p : β × β} (h : p ∈ combs2 l) :
    p.1 ∈ l ∧ p.2 ∈ l := by
  induction l with
  | nil => simp [combs2] at h
  | cons x rest ih =>
    rw [combs2, List.mem_append] at h
    rcases h with h | h
    · rw [List.mem_map] at h
      obtain ⟨y, hy, hp⟩ := h
      rw [← hp]
      exact ⟨List.mem_cons_self x rest, List.mem_cons_of_mem x hy⟩
    · have hm := ih h
      exact ⟨List.mem_cons_of_mem x hm.1, List.mem_cons_of_mem x hm.2⟩

/-- C1 counterexample.  The claim says no triad instance ever pairs a Node as
`C2` or `C3`.  On the produced graph `exT` (node `n`, hypernodes `A`, `B`,
edges `n -> A` and `B -> A`), `incoming_triad_motifs` returns the instance
`(A, n, B, ...)` whose `C2` component `n` is a Node, not a Hypernode. -/
theorem incoming_triad_pairs_node_cex :
    exT.incoming_triad_motifs = [("A", "n", "B", [], [("x", 1)])] ∧
    amem exT.nodes "n" = true ∧ amem exT.hypernodes "n" = false :=
  ⟨rfl, rfl, rfl⟩

/-- C1 (amended).  The triad enumerations draw the pair `{C2, C3}` from all
recorded neighbors in the adjacency dict of `C1` — `adj_in[C1]` for incoming
triads, `adj_out[C1]` for outgoing triads — without restricting to the
Hypernode tier, so Nodes can occur as `C2` or `C3`. -/
theorem triad_neighbors_unrestricted (g : Hypergraph α ν)
    (m : α × α × α × Info × Info) :
    (m ∈ g.incoming_triad_motifs →
      m.2.1 ∈ keys (lookupD g.adj_in m.1) ∧ m.2.2.1 ∈ keys (lookupD g.adj_in m.1)) ∧
    (m ∈ g.outgoing_triad_motifs →
      m.2.1 ∈ keys (lookupD g.adj_out m.1) ∧ m.2.2.1 ∈ keys (lookupD g.adj_out m.1)) := by
  constructor
  · intro hm
    unfold incoming_triad_motifs at hm
    rw [List.mem_flatMap] at hm
    obtain ⟨C1, hC1, hm⟩ := hm
    rw [List.mem_flatMap] at hm
    obtain ⟨pr, hpr, hm⟩ := hm
    rw [List.mem_flatMap] at hm
    obtain ⟨e1, he1, hm⟩ := hm
    rw [List.mem_map] at hm
    obtain ⟨e2, he2, hm⟩ := hm
    rw [← hm]
    exact (mem_combs2 hpr)
  · intro hm
    unfold outgoing_triad_motifs at hm
    rw [List.mem_flatMap] at hm
    obtain ⟨C1, hC1, hm⟩ := hm
    rw [List.mem_flatMap] at hm
    obtain ⟨pr, hpr, hm⟩ := hm
    rw [List.mem_flatMap] at hm
    obtain ⟨e1, he1, hm⟩ := hm
    rw [List.mem_map] at hm
    obtain ⟨e2, he2, hm⟩ := hm
    rw [← hm]
    exact (mem_combs2 hpr)

/-- Witness for the amended C1 theorem at the concrete graph `exT`. -/
theorem triad_neighbors_unrestricted_witness :
    ("A", "n", "B", ([] : Info), [("x", 1)]) ∈ exT.incoming_triad_motifs ∧
    "n" ∈ keys (lookupD exT.adj_in "A") ∧ "B" ∈ keys (lookupD exT.adj_in "A") :=
  ⟨by rw [show exT.incoming_triad_motifs = [("A", "n", "B", [], [("x", 1)])] from rfl]
      exact List.mem_singleton.mpr rfl,
    ((triad_neighbors_unrestricted exT ("A", "n", "B", [], [("x", 1)])).1
      (by rw [show exT.incoming_triad_motifs = [("A", "n", "B", [], [("x", 1)])] from rfl]
          exact List.mem_singleton.mpr rfl)).1,
    ((triad_neighbors_unrestricted exT ("A", "n", "B", [], [("x", 1)])).1
      (by rw [show exT.incoming_triad_motifs = [("A", "n", "B", [], [("x", 1)])] from rfl]
          exact List.mem_singleton.mpr rfl)).2⟩

/-- C2 counterexample.  The claim says a second `add_node` with an id already
present fails and does not reset its adjacency.  On the produced graph `exG`
(nodes `a`, `b`, one `a -> b` edge instance), re-adding `a` succeeds and
resets `adj_out[a]` from `{b : [{}]}` to `{}`. -/
theorem add_node_existing_cex :
    amem exG.nodes "a" = true ∧
    alookup exG.adj_out "a" = some [("b", [[]])] ∧
    alookup (exG.add_node "a" none).adj_out "a" = some [] ∧
    alookup (exG.add_node "a" none).nodes "a" = some none :=
  ⟨rfl, rfl, rfl, rfl⟩

/-- C2 (amended).  `add_node` performs no presence check: called with any id
(including one already present as a Node or Hypernode) it succeeds, rebinds
the id's `nodes` entry to the new metadata, resets both of the id's
adjacency dicts to empty, and leaves `hypernodes` untouched. -/
theorem add_node_existing_overwrites (g : Hypergraph α ν) (u : α) (info : Option ν) :
    alookup (g.add_node u info).nodes u = some info ∧
    alookup (g.add_node u info).adj_out u = some [] ∧
    alookup (g.add_node u info).adj_in u = some [] ∧
    (g.add_node u info).hypernodes = g.hypernodes := by
  refine ⟨?_, ?_, ?_, rfl⟩
  · rw [add_node_nodes, alookup_aset, if_pos rfl]
  · rw [add_node_adj_out, alookup_aset, if_pos rfl]
  · rw [add_node_adj_in, alookup_aset, if_pos rfl]

/-- C5.  If either endpoint of `add_edge` is not registered as a Node or a
Hypernode, the call fails on the endpoint `assert`s, which run before any
mutation; in the embedding the failed call returns `none` and no successor
state exists, so the graph is unchanged. -/
theorem add_edge_unknown_endpoint_fails {g : Hypergraph α ν} {u v : α}
    {i : Option Info} (h : hasVertex g u = false ∨ hasVertex g v = false) :
    g.add_edge u v i = none := by
  unfold add_edge
  rcases h with h | h
  · rw [if_pos h]
  · by_cases hu : hasVertex g u = false
    · rw [if_pos hu]
    · rw [if_neg hu, if_pos h]

/-- Witness for C5 at a concrete graph with one node `a` and no vertex `z`. -/
theorem add_edge_unknown_endpoint_fails_witness :
    hasVertex (Hypergraph.empty.add_node "a" (none : Option Unit)) "z" = false ∧
    (Hypergraph.empty.add_node "a" (none : Option Unit)).add_edge "a" "z" none = none :=
  ⟨by decide, add_edge_unknown_endpoint_fails (Or.inr (by decide))⟩

/-- C4.  Between two registered Hypernodes, `add_edge` fails when the payload
is omitted (`None.keys()` raises) or an empty dict (the length assert
fails), and succeeds for any non-empty payload, after which the inserted
instance appears in `outgoing_hypernodes` of the source and
`incoming_hypernodes` of the target. -/
theorem hyperedge_payload_required {g : Hypergraph α ν} {C1 C2 : α}
    (hp : Produced g) (h1 : amem g.hypernodes C1 = true)
    (h2 : amem g.hypernodes C2 = true) :
    g.add_edge C1 C2 none = none ∧
    g.add_edge C1 C2 (some []) = none ∧
    ∀ i : Info, i ≠ [] → ∃ g', g.add_edge C1 C2 (some i) = some g' ∧
      (∃ l, alookup (g'.outgoing_hypernodes C1) C2 = some l ∧ i ∈ l) ∧
      (∃ l, alookup (g'.incoming_hypernodes C2) C1 = some l ∧ i ∈ l) := by
  have hv1 : hasVertex g C1 = true := by unfold hasVertex; rw [h1]; simp
  have hv2 : hasVertex g C2 = true := by unfold hasVertex; rw [h2]; simp
  have wf := hp.storeWF
  refine ⟨?_, ?_, ?_⟩
  · unfold add_edge
    rw [if_neg (by simp [hv1]), if_neg (by simp [hv2]),
      if_pos (show _ = true by rw [h1, h2]; rfl)]
  · unfold add_edge
    rw [if_neg (by simp [hv1]), if_neg (by simp [hv2]),
      if_pos (show _ = true by rw [h1, h2]; rfl)]
  · intro i hi
    obtain ⟨mo, hmo⟩ := Option.isSome_iff_exists.mp (wf.out_total C1 hv1)
    obtain ⟨mi, hmi⟩ := Option.isSome_iff_exists.mp (wf.in_total C2 hv2)
    have hemp : emptyInfo (some i) = false := by
      cases i with
      | nil => exact absurd rfl hi
      | cons a l => rfl
    refine ⟨{ g with
        adj_out := aset g.adj_out C1 (aset mo C2 ((alookup mo C2).getD [] ++ [i]))
        adj_in := aset g.adj_in C2 (aset mi C1 ((alookup mi C1).getD [] ++ [i])) },
      ?_, ?_, ?_⟩
    · unfold add_edge
      rw [if_neg (by simp [hv1]), if_neg (by simp [hv2]),
        if_neg (by rw [hemp]; simp), hmo, hmi]
      rfl
    · refine ⟨(alookup mo C2).getD [] ++ [i], ?_, by simp⟩
      unfold outgoing_hypernodes
      rw [show ({ g with
          adj_out := aset g.adj_out C1 (aset mo C2 ((alookup mo C2).getD [] ++ [i]))
          adj_in := aset g.adj_in C2 (aset mi C1 ((alookup mi C1).getD [] ++ [i])) } :
          Hypergraph α ν).adj_out = aset g.adj_out C1
            (aset mo C2 ((alookup mo C2).getD [] ++ [i])) from rfl]
      rw [show lookupD (aset g.adj_out C1 (aset mo C2 ((alookup mo C2).getD [] ++ [i])))
          C1 = aset mo C2 ((alookup mo C2).getD [] ++ [i]) by
        unfold lookupD; rw [alookup_aset, if_pos rfl]; rfl]
      exact alookup_filter (by rw [alookup_aset, if_pos rfl]) (by
        show amem _ C2 = true
        exact h2)
    · refine ⟨(alookup mi C1).getD [] ++ [i], ?_, by simp⟩
      unfold incoming_hypernodes
      rw [show ({ g with
          adj_out := aset g.adj_out C1 (aset mo C2 ((alookup mo C2).getD [] ++ [i]))
          adj_in := aset g.adj_in C2 (aset mi C1 ((alookup mi C1).getD [] ++ [i])) } :
          Hypergraph α ν).adj_in = aset g.adj_in C2
            (aset mi C1 ((alookup mi C1).getD [] ++ [i])) from rfl]
      rw [show lookupD (aset g.adj_in C2 (aset mi C1 ((alookup mi C1).getD [] ++ [i])))
          C2 = aset mi C1 ((alookup mi C1).getD [] ++ [i]) by
        unfold lookupD; rw [alookup_aset, if_pos rfl]; rfl]
      exact alookup_filter (by rw [alookup_aset, if_pos rfl]) (by
        show amem _ C1 = true
        exact h1)

/-- Witness for C4 at the concrete graph `exH` with payload
`{timestamp: 7}`. -/
theorem hyperedge_payload_required_witness :
    amem exH.hypernodes "A" = true ∧ amem exH.hypernodes "B" = true ∧
    exH.add_edge "A" "B" none = none ∧ exH.add_edge "A" "B" (some []) = none ∧
    ∃ g', exH.add_edge "A" "B" (some [("timestamp", 7)]) = some g' ∧
      (∃ l, alookup (g'.outgoing_hypernodes "A") "B" = some l ∧
        [("timestamp", 7)] ∈ l) ∧
      (∃ l, alookup (g'.incoming_hypernodes "B") "A" = some l ∧
        [("timestamp", 7)] ∈ l) :=
  ⟨by decide, by decide,
    (hyperedge_payload_required
      (Produced.add_hypernode "B" [] none
        (Produced.add_hypernode "A" [] none Produced.empty))
      (by decide) (by decide)).1,
    (hyperedge_payload_required
      (Produced.add_hypernode "B" [] none
        (Produced.add_hypernode "A" [] none Produced.empty))
      (by decide) (by decide)).2.1,
    (hyperedge_payload_required
      (Produced.add_hypernode "B" [] none
        (Produced.add_hypernode "A" [] none Produced.empty))
      (by decide) (by decide)).2.2 [("timestamp", 7)] (by decide)⟩

end Hypergraph

theorem mem_of_mem_insDesc {y x : Nat} {l : List Nat} (h : y ∈ insDesc x l) :
    y = x ∨ y ∈ l := by
  induction l with
  | nil => simp [insDesc] at h; exact Or.inl h
  | cons z l ih =>
    rw [insDesc] at h
    by_cases hz : x ≤ z
    · rw [if_pos hz, List.mem_cons] at h
      rcases h with h | h
      · exact Or.inr (by rw [h]; exact List.mem_cons_self z l)
      · rcases ih h with h | h
        · exact Or.inl h
        · exact Or.inr (List.mem_cons_of_mem z h)
    · rw [if_neg hz, List.mem_cons] at h
      rcases h with h | h
      · exact Or.inl h
      · exact Or.inr h

theorem mem_of_mem_foldl_insDesc {y : Nat} : ∀ (l acc : List Nat),
    y ∈ l.foldl (fun acc x => insDesc x acc) acc → y ∈ acc ∨ y ∈ l := by
  intro l
  induction l with
  | nil => intro acc h; exact Or.inl h
  | cons z l ih =>
    intro acc h
    rw [List.foldl_cons] at h
    rcases ih (insDesc z acc) h with h2 | h2
    · rcases mem_of_mem_insDesc h2 with h3 | h3
      · exact Or.inr (by rw [h3]; exact List.mem_cons_self z l)
      · exact Or.inl h3
    · exact Or.inr (List.mem_cons_of_mem z h2)

theorem mem_of_mem_sortedDesc {y : Nat} {l : List Nat} (h : y ∈ sortedDesc l) :
    y ∈ l := by
  rcases mem_of_mem_foldl_insDesc l [] h with h' | h'
  · simp at h'
  · exact h'

theorem foldl_max_all_zero {l : List Nat} : ∀ a : Nat,
    (∀ x ∈ l, x = 0) → l.foldl max a = a := by
  induction l with
  | nil => intro a _; rfl
  | cons z l ih =>
    intro a hz
    rw [List.foldl_cons, hz z (List.mem_cons_self z l), Nat.max_zero]
    exact ih a (fun x hx => hz x (List.mem_cons_of_mem z hx))

theorem natMax_eq_zero {l : List Nat} (h : ∀ x ∈ l, x = 0) : natMax l = 0 :=
  foldl_max_all_zero 0 h

theorem secondLargest_eq_zero {l : List Nat} (h : ∀ x ∈ l, x = 0) :
    secondLargest l = 0 := by
  unfold secondLargest
  cases hs : sortedDesc l with
  | nil => rfl
  | cons a t =>
    cases t with
    | nil => rfl
    | cons b t2 =>
      have hb : b ∈ sortedDesc l := by
        rw [hs]; exact List.mem_cons_of_mem a (List.mem_cons_self b t2)
      exact h b (mem_of_mem_sortedDesc hb)

/-- C6 counterexample.  The empty vector is a degree vector (the empty
Hypergraph produces it) and is all-zero, yet `norm.max` (like `max` and
`argmax`) raises `ValueError` through `np.max` instead of yielding nan, so
the all-zero clause and the no-failure clause of the claim fail on it. -/
theorem degree_stats_empty_vector_cex :
    (Hypergraph.empty : Hypergraph String Unit).outdegrees false false = [] ∧
    (∀ x ∈ ([] : List Nat), x = 0) ∧
    stat_norm_max [] = none ∧ stat_max [] = none ∧ stat_argmax [] = none :=
  ⟨rfl, by simp, rfl, rfl, rfl⟩

/-- C6 (amended).  For every degree vector with fewer than 2 elements the
four second-largest-derived statistics are nan; for every nonempty all-zero
vector, `mean-nonzero`, `norm.max` and `norm.2nd-largest` are nan; and no
nonempty vector makes any of the statistics raise.  (The empty vector makes
`max`, `argmax` and `norm.max` raise `ValueError`.) -/
theorem degree_stats_degenerate (l : List Nat) :
    (l.length < 2 →
      stat_2nd_largest l = some FVal.nan ∧ stat_2nd_argmax l = some FVal.nan ∧
      stat_norm_2nd_largest l = some FVal.nan ∧ stat_2nd_over_max l = some FVal.nan) ∧
    ((∀ x ∈ l, x = 0) →
      stat_mean_nonzero l = some FVal.nan ∧
      (l ≠ [] → stat_norm_max l = some FVal.nan) ∧
      stat_norm_2nd_largest l = some FVal.nan) ∧
    (l ≠ [] → ∀ f ∈ degree_stat_funcs, (f l).isSome = true) := by
  refine ⟨?_, ?_, ?_⟩
  · intro hlen
    have hnot : ¬ 1 < l.length := by omega
    exact ⟨by rw [stat_2nd_largest, if_neg hnot],
      by rw [stat_2nd_argmax, if_neg hnot],
      by rw [stat_norm_2nd_largest, if_neg hnot],
      by rw [stat_2nd_over_max, if_neg hnot]⟩
  · intro hz
    have hfil : l.filter (fun x => decide (x ≠ 0)) = [] := by
      rw [List.filter_eq_nil_iff]
      intro a ha
      simp [hz a ha]
    have hsum : l.sum = 0 := List.sum_eq_zero hz
    refine ⟨by rw [stat_mean_nonzero, if_pos hfil], ?_, ?_⟩
    · intro hne
      rw [stat_norm_max, if_neg hne, natMax_eq_zero hz, hsum]
      rfl
    · rw [stat_norm_2nd_largest]
      by_cases hlen : 1 < l.length
      · rw [if_pos hlen, secondLargest_eq_zero hz, hsum]
        rfl
      · rw [if_neg hlen]
  · intro hne f hf
    unfold degree_stat_funcs at hf
    simp only [List.mem_cons, List.not_mem_nil, or_false] at hf
    rcases hf with rfl | rfl | rfl | rfl | rfl | rfl | rfl | rfl | rfl | rfl | rfl
    · rw [stat_max, if_neg hne]; rfl
    · rw [stat_argmax, if_neg hne]; rfl
    · rw [stat_norm_max, if_neg hne]; rfl
    · rw [stat_2nd_largest]; rfl
    · rw [stat_2nd_argmax]; rfl
    · rw [stat_norm_2nd_largest]; rfl
    · rw [stat_mean]; rfl
    · rw [stat_mean_nonzero]; rfl
    · rw [stat_prop_nonzero]; rfl
    · rw [stat_prop_multiple]; rfl
    · rw [stat_2nd_over_max]; rfl

/-- Witness for the amended C6 theorem at the singleton all-zero vector. -/
theorem degree_stats_degenerate_witness :
    stat_2nd_largest [0] = some FVal.nan ∧ stat_norm_max [0] = some FVal.nan ∧
    stat_mean_nonzero [0] = some FVal.nan ∧ (stat_max [0]).isSome = true :=
  ⟨((degree_stats_degenerate [0]).1 (by decide)).1,
   (((degree_stats_degenerate [0]).2.1 (by decide)).2.1 (by decide)),
   ((degree_stats_degenerate [0]).2.1 (by decide)).1,
   (degree_stats_degenerate [0]).2.2 (by decide) stat_max
     (by unfold degree_stat_funcs; exact List.mem_cons_self _ _)⟩

theorem collectStep_pairs {α : Type} [DecidableEq α] (uts : List (Utt α))
    (excl : Option α) (acc : BuildAcc α) (ut : Utt α) :
    (collectStep uts excl acc ut).pairs =
      match tripleOf uts excl ut with
      | none => acc.pairs
      | some p => insertNew acc.pairs p := by
  unfold collectStep tripleOf
  by_cases h1 : excl = some ut.id
  · rw [if_pos h1, if_pos h1]
  · rw [if_neg h1, if_neg h1]
    split
    · rfl
    · split
      · rfl
      · split
        · rfl
        · rfl

theorem collectStep_users_keys {α : Type} [DecidableEq α] (uts : List (Utt α))
    (excl : Option α) (acc : BuildAcc α) (ut : Utt α) :
    keys (collectStep uts excl acc ut).users = keys acc.users ∨
    (keys (collectStep uts excl acc ut).users = keys acc.users ++ [ut.user] ∧
      excl ≠ some ut.id ∧ ut.user ∉ keys acc.users) := by
  unfold collectStep
  by_cases h1 : excl = some ut.id
  · rw [if_pos h1]; exact Or.inl rfl
  · rw [if_neg h1]
    have husers : keys (updateUsers acc.users ut) = keys acc.users ∨
        (keys (updateUsers acc.users ut) = keys acc.users ++ [ut.user] ∧
          excl ≠ some ut.id ∧ ut.user ∉ keys acc.users) := by
      unfold updateUsers
      cases hm : alookup acc.users ut.user with
      | none =>
        refine Or.inr ⟨?_, h1, ?_⟩
        · rw [aset_of_not_amem _ _ _ (by unfold amem; rw [hm]; rfl)]
          unfold keys
          rw [List.map_append]
          rfl
        · intro hmem
          rw [← amem_iff_mem_keys] at hmem
          unfold amem at hmem
          rw [hm] at hmem
          cases hmem
      | some q =>
        obtain ⟨m, ids⟩ := q
        exact Or.inl (keys_aset_of_amem _ _ _ (by unfold amem; rw [hm]; rfl))
    split
    · exact husers
    · split
      · exact husers
      · split
        · exact husers
        · exact husers

theorem collectStep_reply_edges {α : Type} [DecidableEq α] (uts : List (Utt α))
    (excl : Option α) (acc : BuildAcc α) (ut : Utt α) :
    (collectStep uts excl acc ut).reply_edges = acc.reply_edges ∨
    (∃ r, (collectStep uts excl acc ut).reply_edges
      = acc.reply_edges ++ [(ut.id, r)] ∧ ∃ w ∈ uts, w.id = r) := by
  unfold collectStep
  by_cases h1 : excl = some ut.id
  · rw [if_pos h1]; exact Or.inl rfl
  · rw [if_neg h1]
    split
    · exact Or.inl rfl
    · split
      · exact Or.inl rfl
      · split
        · exact Or.inl rfl
        · rename_i x1 r hr x2 w hf hexcl
          refine Or.inr ⟨r, rfl, w, List.mem_of_find?_eq_some hf, ?_⟩
          have := List.find?_some hf
          simpa using this

theorem collectStep_reply_tos {α : Type} [DecidableEq α] (uts : List (Utt α))
    (excl : Option α) (acc : BuildAcc α) (ut : Utt α) :
    (collectStep uts excl acc ut).reply_tos = acc.reply_tos ∨
    (∃ r, (collectStep uts excl acc ut).reply_tos
      = aset acc.reply_tos ut.user ((alookup acc.reply_tos ut.user).getD [] ++ [r])
      ∧ ∃ w ∈ uts, w.id = r) := by
  unfold collectStep
  by_cases h1 : excl = some ut.id
  · rw [if_pos h1]; exact Or.inl rfl
  · rw [if_neg h1]
    split
    · exact Or.inl rfl
    · split
      · exact Or.inl rfl
      · split
        · exact Or.inl rfl
        · rename_i x1 r hr x2 w hf hexcl
          refine Or.inr ⟨r, rfl, w, List.mem_of_find?_eq_some hf, ?_⟩
          have := List.find?_some hf
          simpa using this

theorem mem_of_mem_insAscTs {α : Type} {y x : Utt α} {l : List (Utt α)}
    (h : y ∈ insAscTs x l) : y = x ∨ y ∈ l := by
  induction l with
  | nil => simp [insAscTs] at h; exact Or.inl h
  | cons z l ih =>
    rw [insAscTs] at h
    by_cases hz : z.timestamp ≤ x.timestamp
    · rw [if_pos hz, List.mem_cons] at h
      rcases h with h | h
      · exact Or.inr (by rw [h]; exact List.mem_cons_self z l)
      · rcases ih h with h | h
        · exact Or.inl h
        · exact Or.inr (List.mem_cons_of_mem z h)
    · rw [if_neg hz, List.mem_cons] at h
      rcases h with h | h
      · exact Or.inl h
      · exact Or.inr h

theorem mem_of_mem_foldl_insAscTs {α : Type} {y : Utt α} :
    ∀ (l acc : List (Utt α)),
      y ∈ l.foldl (fun acc u => insAscTs u acc) acc → y ∈ acc ∨ y ∈ l := by
  intro l
  induction l with
  | nil => intro acc h; exact Or.inl h
  | cons z l ih =>
    intro acc h
    rw [List.foldl_cons] at h
    rcases ih (insAscTs z acc) h with h2 | h2
    · rcases mem_of_mem_insAscTs h2 with h3 | h3
      · exact Or.inr (by rw [h3]; exact List.mem_cons_self z l)
      · exact Or.inl h3
    · exact Or.inr (List.mem_cons_of_mem z h2)

theorem mem_of_mem_sortByTs {α : Type} {y : Utt α} {l : List (Utt α)}
    (h : y ∈ sortByTs l) : y ∈ l := by
  rcases mem_of_mem_foldl_insAscTs l [] h with h' | h'
  · simp at h'
  · exact h'

theorem mem_insertNew {β : Type} [DecidableEq β] (s : List β) (x y : β) :
    y ∈ insertNew s x ↔ y ∈ s ∨ y = x := by
  unfold insertNew
  by_cases h : x ∈ s
  · rw [if_pos h]
    constructor
    · exact Or.inl
    · rintro (hy | hy)
      · exact hy
      · rw [hy]; exact h
  · rw [if_neg h, List.mem_append, List.mem_singleton]

theorem nodup_insertNew {β : Type} [DecidableEq β] (s : List β) (x : β)
    (h : s.Nodup) : (insertNew s x).Nodup := by
  unfold insertNew
  by_cases hx : x ∈ s
  · rw [if_pos hx]; exact h
  · rw [if_neg hx, List.nodup_append]
    exact ⟨h, List.nodup_singleton x, by
      intro a ha hax
      rw [List.mem_singleton] at hax
      subst hax
      exact hx ha⟩

theorem mem_of_alookup_eq_some {α β : Type} [DecidableEq α]
    {d : List (α × β)} {k : α} {v : β} (h : alookup d k = some v) : (k, v) ∈ d := by
  induction d with
  | nil => simp at h
  | cons q d ih =>
    obtain ⟨k', v'⟩ := q
    rw [alookup_cons] at h
    by_cases hk : k' = k
    · rw [if_pos hk] at h
      simp only [Option.some.injEq] at h
      subst h
      subst hk
      exact List.mem_cons_self _ _
    · rw [if_neg hk] at h
      exact List.mem_cons_of_mem _ (ih h)

theorem mem_of_mem_aset {α β : Type} [DecidableEq α]
    {d : List (α × β)} {k : α} {v : β} {q : α × β} (h : q ∈ aset d k v) :
    q ∈ d ∨ q = (k, v) := by
  induction d with
  | nil => simp [aset] at h; exact Or.inr h
  | cons p d ih =>
    obtain ⟨k', v'⟩ := p
    rw [aset_cons] at h
    by_cases hk : k' = k
    · rw [if_pos hk, List.mem_cons] at h
      rcases h with h | h
      · exact Or.inr h
      · exact Or.inl (List.mem_cons_of_mem _ h)
    · rw [if_neg hk, List.mem_cons] at h
      rcases h with h | h
      · exact Or.inl (by rw [h]; exact List.mem_cons_self _ _)
      · rcases ih h with h2 | h2
        · exact Or.inl (List.mem_cons_of_mem _ h2)
        · exact Or.inr h2

theorem foldl_invariant {σ β : Type} (P : σ → Prop) (f : σ → β → σ)
    (l : List β) (s : σ) (h0 : P s)
    (hstep : ∀ s' b, b ∈ l → P s' → P (f s' b)) : P (l.foldl f s) := by
  induction l generalizing s with
  | nil => exact h0
  | cons b l ih =>
    rw [List.foldl_cons]
    exact ih (f s b) (hstep s b (List.mem_cons_self b l) h0)
      (fun s' b' hb' => hstep s' b' (List.mem_cons_of_mem b hb'))

theorem foldl_pairs_mem {α : Type} [DecidableEq α] (uts : List (Utt α))
    (excl : Option α) (L : List (Utt α)) (acc : BuildAcc α) (x : α × α × Int) :
    x ∈ (L.foldl (collectStep uts excl) acc).pairs ↔
      x ∈ acc.pairs ∨ x ∈ L.filterMap (tripleOf uts excl) := by
  induction L generalizing acc with
  | nil => simp
  | cons ut L ih =>
    rw [List.foldl_cons, ih, List.filterMap_cons]
    rw [show (collectStep uts excl acc ut).pairs = match tripleOf uts excl ut with
      | none => acc.pairs
      | some p => insertNew acc.pairs p from collectStep_pairs uts excl acc ut]
    cases ht : tripleOf uts excl ut with
    | none => rfl
    | some p =>
      rw [mem_insertNew, List.mem_cons]
      constructor
      · rintro ((h | h) | h)
        · exact Or.inl h
        · exact Or.inr (Or.inl h)
        · exact Or.inr (Or.inr h)
      · rintro (h | h | h)
        · exact Or.inl (Or.inl h)
        · exact Or.inl (Or.inr h)
        · exact Or.inr h

theorem foldl_pairs_nodup {α : Type} [DecidableEq α] (uts : List (Utt α))
    (excl : Option α) (L : List (Utt α)) (acc : BuildAcc α)
    (h : acc.pairs.Nodup) : (L.foldl (collectStep uts excl) acc).pairs.Nodup := by
  refine foldl_invariant (fun a => a.pairs.Nodup) _ L acc h ?_
  intro a ut _ ha
  rw [collectStep_pairs]
  cases tripleOf uts excl ut with
  | none => exact ha
  | some p => exact nodup_insertNew _ _ ha

theorem buildAcc_pairs_mem {α : Type} [DecidableEq α] (uts : List (Utt α))
    (excl : Option α) (x : α × α × Int) :
    x ∈ (buildAcc uts excl).pairs ↔ x ∈ rawTriples uts excl := by
  unfold buildAcc rawTriples
  rw [foldl_pairs_mem]
  simp

theorem buildAcc_pairs_nodup {α : Type} [DecidableEq α] (uts : List (Utt α))
    (excl : Option α) : (buildAcc uts excl).pairs.Nodup :=
  foldl_pairs_nodup uts excl _ _ (List.nodup_nil)

theorem buildAcc_users_nodup {α : Type} [DecidableEq α] (uts : List (Utt α))
    (excl : Option α) : (keys (buildAcc uts excl).users).Nodup := by
  unfold buildAcc
  refine foldl_invariant (fun (a : BuildAcc α) => (keys a.users).Nodup) _ _ _
    (by simp) ?_
  intro a ut _ ha
  rcases collectStep_users_keys uts excl a ut with h | ⟨h, _, hfresh⟩
  · rw [h]; exact ha
  · rw [h, List.nodup_append]
    exact ⟨ha, List.nodup_singleton _, by
      intro y hy hy'
      rw [List.mem_singleton] at hy'
      subst hy'
      exact hfresh hy⟩

theorem buildAcc_users_src {α : Type} [DecidableEq α] (uts : List (Utt α))
    (excl : Option α) :
    ∀ x ∈ keys (buildAcc uts excl).users, ∃ ut ∈ uts, ut.user = x := by
  unfold buildAcc
  refine foldl_invariant
    (fun (a : BuildAcc α) => ∀ x ∈ keys a.users, ∃ ut ∈ uts, ut.user = x)
    _ _ _ (by intro x hx; simp [keys] at hx) ?_
  intro a ut hut ha x hx
  rcases collectStep_users_keys uts excl a ut with h | ⟨h, _, _⟩
  · rw [h] at hx; exact ha x hx
  · rw [h, List.mem_append, List.mem_singleton] at hx
    rcases hx with hx | hx
    · exact ha x hx
    · exact ⟨ut, mem_of_mem_sortByTs hut, hx.symm⟩

theorem buildAcc_reply_edges_src {α : Type} [DecidableEq α] (uts : List (Utt α))
    (excl : Option α) :
    ∀ p ∈ (buildAcc uts excl).reply_edges, ∃ ut ∈ uts, p.1 = ut.id := by
  unfold buildAcc
  refine foldl_invariant
    (fun (a : BuildAcc α) => ∀ p ∈ a.reply_edges, ∃ ut ∈ uts, p.1 = ut.id) _ _ _
    (by intro p hp; simp at hp) ?_
  intro a ut hut ha p hp
  rcases collectStep_reply_edges uts excl a ut with h | ⟨r, h, _⟩
  · rw [h] at hp; exact ha p hp
  · rw [h, List.mem_append, List.mem_singleton] at hp
    rcases hp with hp | hp
    · exact ha p hp
    · exact ⟨ut, mem_of_mem_sortByTs hut, by rw [hp]⟩

theorem buildAcc_reply_tos_val {α : Type} [DecidableEq α] (uts : List (Utt α))
    (excl : Option α) :
    ∀ p ∈ (buildAcc uts excl).reply_tos, ∀ r ∈ p.2, ∃ w ∈ uts, w.id = r := by
  unfold buildAcc
  refine foldl_invariant
    (fun (a : BuildAcc α) => ∀ p ∈ a.reply_tos, ∀ r ∈ p.2, ∃ w ∈ uts, w.id = r)
    _ _ _ (by intro p hp; simp at hp) ?_
  intro a ut _ ha p hp r hr
  rcases collectStep_reply_tos uts excl a ut with h | ⟨r0, h, hr0⟩
  · rw [h] at hp; exact ha p hp r hr
  · rw [h] at hp
    rcases mem_of_mem_aset hp with hp2 | hp2
    · exact ha p hp2 r hr
    · subst hp2
      rw [List.mem_append, List.mem_singleton] at hr
      rcases hr with hr | hr
      · cases hv : alookup a.reply_tos ut.user with
        | none => rw [hv] at hr; simp at hr
        | some l =>
          rw [hv] at hr
          exact ha (ut.user, l) (mem_of_alookup_eq_some hv) r hr
      · subst hr
        exact hr0

theorem foldl_preserves {σ β γ : Type} (F : σ → γ) (f : σ → β → σ)
    (l : List β) (s : σ) (hstep : ∀ s' b, b ∈ l → F (f s' b) = F s') :
    F (l.foldl f s) = F s := by
  induction l generalizing s with
  | nil => rfl
  | cons b l ih =>
    rw [List.foldl_cons, ih (f s b)
      (fun s' b' hb' => hstep s' b' (List.mem_cons_of_mem b hb')),
      hstep s b (List.mem_cons_self b l)]

theorem foldlM_preserves {σ β γ : Type} (F : σ → γ) (f : σ → β → Option σ)
    (l : List β) {s s' : σ} (h : l.foldlM f s = some s')
    (hstep : ∀ t p t', p ∈ l → f t p = some t' → F t' = F t) : F s' = F s := by
  induction l generalizing s with
  | nil =>
    rw [List.foldlM_nil] at h
    cases h
    rfl
  | cons p l ih =>
    rw [List.foldlM_cons] at h
    cases hf : f s p with
    | none => rw [hf] at h; exact absurd h (by simp)
    | some s1 =>
      rw [hf] at h
      simp only [Option.bind_eq_bind, Option.some_bind] at h
      rw [ih h (fun t q t' hq => hstep t q t' (List.mem_cons_of_mem p hq)),
        hstep s p s1 (List.mem_cons_self p l) hf]

theorem foldlM_invariant {σ β : Type} (P : σ → Prop) (f : σ → β → Option σ)
    (l : List β) {s s' : σ} (h : l.foldlM f s = some s') (h0 : P s)
    (hstep : ∀ t p t', p ∈ l → P t → f t p = some t' → P t') : P s' := by
  induction l generalizing s with
  | nil =>
    rw [List.foldlM_nil] at h
    cases h
    exact h0
  | cons p l ih =>
    rw [List.foldlM_cons] at h
    cases hf : f s p with
    | none => rw [hf] at h; exact absurd h (by simp)
    | some s1 =>
      rw [hf] at h
      simp only [Option.bind_eq_bind, Option.some_bind] at h
      exact ih h (hstep s p s1 (List.mem_cons_self p l) h0 hf)
        (fun t q t' hq => hstep t q t' (List.mem_cons_of_mem p hq))

/-- Every graph the builder returns is a state the class can produce. -/
theorem make_hypergraph_produced {α : Type} [DecidableEq α]
    {uts : List (Utt α)} {excl : Option α} {G : Hypergraph α (Utt α)}
    (h : make_hypergraph uts excl = some G) : Hypergraph.Produced G := by
  have h1 : Hypergraph.Produced (addNodesPass uts excl) := by
    unfold addNodesPass
    refine foldl_invariant Hypergraph.Produced _ _ _ Hypergraph.Produced.empty ?_
    intro g ut _ hg
    by_cases he : excl = some ut.id
    · rw [if_pos he]; exact hg
    · rw [if_neg he]; exact Hypergraph.Produced.add_node _ _ hg
  have h2 : Hypergraph.Produced (hypernodesPass uts excl) := by
    unfold hypernodesPass
    exact foldl_invariant Hypergraph.Produced _ _ _ h1
      (fun g p _ hg => Hypergraph.Produced.add_hypernode _ _ _ hg)
  unfold make_hypergraph at h
  rw [Option.bind_eq_some] at h
  obtain ⟨g4, hg4, hc⟩ := h
  unfold speakerReplyPass at hg4
  rw [Option.bind_eq_some] at hg4
  obtain ⟨g3, hg3, hb⟩ := hg4
  unfold replyEdgesPass at hg3
  have h3 : Hypergraph.Produced g3 :=
    foldlM_invariant Hypergraph.Produced _ _ hg3 h2
      (fun t p t' _ ht hf => Hypergraph.Produced.add_edge ht hf)
  have h4 : Hypergraph.Produced g4 :=
    foldlM_invariant Hypergraph.Produced _ _ hb h3
      (fun t p t' _ ht hf =>
        foldlM_invariant Hypergraph.Produced _ _ hf ht
          (fun t2 r t2' _ ht2 hf2 => Hypergraph.Produced.add_edge ht2 hf2))
  exact foldlM_invariant Hypergraph.Produced _ _ hc h4
    (fun t p t' _ ht hf => Hypergraph.Produced.add_edge ht hf)

theorem addNodesPass_hypernodes {α : Type} [DecidableEq α] (uts : List (Utt α))
    (excl : Option α) : (addNodesPass uts excl).hypernodes = [] := by
  unfold addNodesPass
  exact foldl_preserves (fun (g : Hypergraph α (Utt α)) => g.hypernodes) _ _ _
    (by
      intro g ut _
      by_cases he : excl = some ut.id
      · rw [if_pos he]
      · rw [if_neg he]; rfl)

theorem addNodesPass_adj_none {α : Type} [DecidableEq α] (uts : List (Utt α))
    (excl : Option α) (x : α) (hx : ∀ ut ∈ uts, ut.id ≠ x) :
    alookup (addNodesPass uts excl).adj_out x = none ∧
    alookup (addNodesPass uts excl).adj_in x = none := by
  unfold addNodesPass
  refine foldl_invariant (fun (g : Hypergraph α (Utt α)) =>
    alookup g.adj_out x = none ∧ alookup g.adj_in x = none) _ _ _ ⟨rfl, rfl⟩ ?_
  intro g ut hmem hg
  by_cases he : excl = some ut.id
  · rw [if_pos he]; exact hg
  · rw [if_neg he]
    constructor
    · rw [Hypergraph.add_node_adj_out, alookup_aset,
        if_neg (hx ut (mem_of_mem_sortByTs hmem))]
      exact hg.1
    · rw [Hypergraph.add_node_adj_in, alookup_aset,
        if_neg (hx ut (mem_of_mem_sortByTs hmem))]
      exact hg.2

theorem hyperfold_adj_out_fresh {α ν : Type} [DecidableEq α]
    (users : List (α × (Info × List α))) (g : Hypergraph α ν) (A : α)
    (hA : A ∉ keys users) :
    alookup ((users.foldl (fun (g : Hypergraph α ν) p =>
      g.add_hypernode p.1 p.2.2 (some p.2.1)) g)).adj_out A
      = alookup g.adj_out A := by
  refine foldl_preserves (fun (g : Hypergraph α ν) => alookup g.adj_out A) _ _ _ ?_
  intro g' p hp
  show alookup (g'.add_hypernode p.1 p.2.2 (some p.2.1)).adj_out A
    = alookup g'.adj_out A
  rw [Hypergraph.add_hypernode_adj_out, alookup_aset,
    if_neg (fun hpa => hA (by rw [← hpa]; exact List.mem_map_of_mem Prod.fst hp))]

theorem hyperfold_adj_out_mem {α ν : Type} [DecidableEq α]
    (users : List (α × (Info × List α))) (g : Hypergraph α ν) (A : α)
    (hnd : (keys users).Nodup) (hA : A ∈ keys users) :
    alookup ((users.foldl (fun (g : Hypergraph α ν) p =>
      g.add_hypernode p.1 p.2.2 (some p.2.1)) g)).adj_out A = some [] := by
  induction users generalizing g with
  | nil => simp [keys] at hA
  | cons p users ih =>
    rw [keys_cons, List.nodup_cons] at hnd
    rw [keys_cons, List.mem_cons] at hA
    rw [List.foldl_cons]
    by_cases hA1 : A = p.1
    · rw [hyperfold_adj_out_fresh users _ A (by rw [hA1]; exact hnd.1)]
      rw [Hypergraph.add_hypernode_adj_out, alookup_aset, if_pos hA1.symm]
    · rcases hA with hA | hA
      · exact absurd hA hA1
      · exact ih _ hnd.2 hA

theorem hyperfold_hypernodes_amem {α ν : Type} [DecidableEq α]
    (users : List (α × (Info × List α))) (g : Hypergraph α ν) (x : α) :
    amem ((users.foldl (fun (g : Hypergraph α ν) p =>
      g.add_hypernode p.1 p.2.2 (some p.2.1)) g)).hypernodes x = true
      ↔ amem g.hypernodes x = true ∨ x ∈ keys users := by
  induction users generalizing g with
  | nil => simp
  | cons p users ih =>
    rw [List.foldl_cons, ih, keys_cons, List.mem_cons,
      Hypergraph.add_hypernode_hypernodes, amem_aset]
    by_cases hp : p.1 = x
    · rw [if_pos hp]
      constructor
      · intro _; exact Or.inr (Or.inl hp.symm)
      · intro _; exact Or.inl rfl
    · rw [if_neg hp]
      constructor
      · rintro (h | h)
        · exact Or.inl h
        · exact Or.inr (Or.inr h)
      · rintro (h | h | h)
        · exact Or.inl h
        · exact absurd h.symm hp
        · exact Or.inr h

theorem hyperfold_hypernodes_nodup {α ν : Type} [DecidableEq α]
    (users : List (α × (Info × List α))) (g : Hypergraph α ν)
    (hg : (keys g.hypernodes).Nodup) (hnd : (keys users).Nodup)
    (hfresh : ∀ x ∈ keys users, amem g.hypernodes x = false) :
    (keys ((users.foldl (fun (g : Hypergraph α ν) p =>
      g.add_hypernode p.1 p.2.2 (some p.2.1)) g)).hypernodes).Nodup := by
  induction users generalizing g with
  | nil => exact hg
  | cons p users ih =>
    rw [keys_cons, List.nodup_cons] at hnd
    rw [List.foldl_cons]
    refine ih _ ?_ hnd.2 ?_
    · rw [Hypergraph.add_hypernode_hypernodes]
      exact Hypergraph.nodup_keys_aset _ _ _ hg
    · intro x hx
      rw [Hypergraph.add_hypernode_hypernodes, amem_aset,
        if_neg (by intro hpx; exact hnd.1 (by rw [hpx]; exact hx))]
      exact hfresh x (List.mem_cons_of_mem _ hx)

theorem pass_c_lookup {α ν : Type} [DecidableEq α] (A B : α) :
    ∀ (ps : List (α × α × Int)) {g g' : Hypergraph α ν},
      ps.foldlM (fun (g : Hypergraph α ν) (p : α × α × Int) =>
        g.add_edge p.1 p.2.1 (some [("timestamp", p.2.2)])) g = some g' →
      lookup2 g'.adj_out A B =
        (ps.filter (fun p => decide (p.1 = A ∧ p.2.1 = B))).foldl
          (fun cur p => some ((cur.getD []) ++ [[("timestamp", p.2.2)]]))
          (lookup2 g.adj_out A B) := by
  intro ps
  induction ps with
  | nil =>
    intro g g' h
    rw [List.foldlM_nil] at h
    cases h
    rfl
  | cons p ps ih =>
    intro g g' h
    rw [List.foldlM_cons] at h
    cases hf : g.add_edge p.1 p.2.1 (some [("timestamp", p.2.2)]) with
    | none => rw [hf] at h; exact absurd h (by simp)
    | some g1 =>
      rw [hf] at h
      simp only [Option.bind_eq_bind, Option.some_bind] at h
      rw [ih h, List.filter_cons]
      by_cases hp : p.1 = A ∧ p.2.1 = B
      · rw [if_pos (by simpa using hp), List.foldl_cons]
        congr 1
        rw [Hypergraph.lookup2_add_edge_out hf A B, if_pos hp, hp.1, hp.2]
        rfl
      · rw [if_neg (by simpa using hp)]
        congr 1
        rw [Hypergraph.lookup2_add_edge_out hf A B, if_neg hp]

theorem fold_payload_from_some {α : Type} [DecidableEq α] (ps : List (α × α × Int))
    (acc : List Info) :
    ps.foldl (fun cur p => some ((cur.getD []) ++ [[("timestamp", p.2.2)]]))
        (some acc)
      = some (acc ++ ps.map (fun p => [("timestamp", p.2.2)])) := by
  induction ps generalizing acc with
  | nil => simp
  | cons p ps ih =>
    rw [List.foldl_cons]
    rw [show (some acc).getD ([] : List Info) = acc from rfl]
    rw [ih, List.map_cons]
    rw [List.append_assoc]
    rfl

theorem fold_payload_from_none {α : Type} [DecidableEq α] (ps : List (α × α × Int)) :
    ps.foldl (fun cur p => some ((cur.getD []) ++ [[("timestamp", p.2.2)]]))
        (none : Option (List Info))
      = if ps = [] then none
        else some (ps.map (fun p => [("timestamp", p.2.2)])) := by
  cases ps with
  | nil => rfl
  | cons p ps =>
    rw [List.foldl_cons, if_neg (by simp)]
    simp only [Option.getD_none, List.nil_append]
    rw [fold_payload_from_some, List.map_cons]
    rfl

/-- Characterization of the Hypernode-to-Hypernode adjacency of a built
graph: for usernames `A`, `B` (identities never used as a message id), the
edge-instance list under `B` in `adj_out[A]` consists of exactly one
`{'timestamp': t}` payload per stored `(A, B, t)` triple, in set order, and
the entry is absent when no such triple exists. -/
theorem hh_char {α : Type} [DecidableEq α] {uts : List (Utt α)} {excl : Option α}
    {G : Hypergraph α (Utt α)} {A B : α}
    (hxA : ∀ ut ∈ uts, ut.id ≠ A) (hxB : ∀ ut ∈ uts, ut.id ≠ B)
    (hA : A ∈ keys (buildAcc uts excl).users)
    (hG : make_hypergraph uts excl = some G) :
    lookup2 G.adj_out A B =
      (if ((buildAcc uts excl).pairs.filter
          (fun p => decide (p.1 = A ∧ p.2.1 = B))) = [] then none
       else some (((buildAcc uts excl).pairs.filter
          (fun p => decide (p.1 = A ∧ p.2.1 = B))).map
            (fun p => [("timestamp", p.2.2)]))) := by
  unfold make_hypergraph at hG
  rw [Option.bind_eq_some] at hG
  obtain ⟨g4, hg4, hc⟩ := hG
  unfold speakerReplyPass at hg4
  rw [Option.bind_eq_some] at hg4
  obtain ⟨g3, hg3, hb⟩ := hg4
  unfold replyEdgesPass at hg3
  have hstart : lookup2 (hypernodesPass uts excl).adj_out A B = none := by
    unfold hypernodesPass lookup2
    rw [hyperfold_adj_out_mem _ _ A (buildAcc_users_nodup uts excl) hA]
    rfl
  have h3 : lookup2 g3.adj_out A B = none := by
    have hpres := foldlM_preserves
      (fun (g : Hypergraph α (Utt α)) => lookup2 g.adj_out A B) _ _ hg3 (by
        intro t p t' hp hf
        show lookup2 t'.adj_out A B = lookup2 t.adj_out A B
        rw [Hypergraph.lookup2_add_edge_out hf A B, if_neg ?_]
        obtain ⟨ut, hut, hid⟩ := buildAcc_reply_edges_src uts excl p hp
        intro hc2
        exact hxA ut hut (by rw [← hid]; exact hc2.1))
    simp only [] at hpres
    rw [hpres]
    exact hstart
  have h4 : lookup2 g4.adj_out A B = none := by
    have hpres := foldlM_preserves
      (fun (g : Hypergraph α (Utt α)) => lookup2 g.adj_out A B) _ _ hb (by
        intro t p t' hp hf
        show lookup2 t'.adj_out A B = lookup2 t.adj_out A B
        refine foldlM_preserves
          (fun (g : Hypergraph α (Utt α)) => lookup2 g.adj_out A B) _ _ hf ?_
        intro t2 r t2' hr hf2
        show lookup2 t2'.adj_out A B = lookup2 t2.adj_out A B
        rw [Hypergraph.lookup2_add_edge_out hf2 A B, if_neg ?_]
        obtain ⟨w, hw, hid⟩ := buildAcc_reply_tos_val uts excl p hp r hr
        intro hc2
        exact hxB w hw (by rw [hid]; exact hc2.2))
    simp only [] at hpres
    rw [hpres]
    exact h3
  rw [pass_c_lookup A B _ hc, h4, fold_payload_from_none]

/-- C8.  In a built graph, for every author pair `(A, B)`, the number of
Hypernode-to-Hypernode edge instances from `A` to `B` equals the number of
stored `(A, B, t)` triples, whose timestamps are duplicate-free and are
exactly the timestamps of `A`-replies-to-`B` occurring in the input: two
identical (author, target author, timestamp) triples collapse to one edge
instance, and distinct timestamps give one instance each. -/
theorem hh_edge_instances_dedup {α : Type} [DecidableEq α]
    {uts : List (Utt α)} {excl : Option α} {G : Hypergraph α (Utt α)} {A B : α}
    (hdisj : ∀ ut ∈ uts, ∀ w ∈ uts, w.user ≠ ut.id)
    (hA : A ∈ keys (buildAcc uts excl).users)
    (hB : B ∈ keys (buildAcc uts excl).users)
    (hG : make_hypergraph uts excl = some G) :
    ((lookup2 G.adj_out A B).getD []).length
        = (((buildAcc uts excl).pairs.filter
            (fun p => decide (p.1 = A ∧ p.2.1 = B))).map (fun p => p.2.2)).length ∧
    ((((buildAcc uts excl).pairs.filter
        (fun p => decide (p.1 = A ∧ p.2.1 = B))).map (fun p => p.2.2)).Nodup) ∧
    (∀ t : Int, t ∈ (((buildAcc uts excl).pairs.filter
        (fun p => decide (p.1 = A ∧ p.2.1 = B))).map (fun p => p.2.2))
      ↔ (A, B, t) ∈ rawTriples uts excl) := by
  obtain ⟨wA, hwA, hwAu⟩ := buildAcc_users_src uts excl A hA
  obtain ⟨wB, hwB, hwBu⟩ := buildAcc_users_src uts excl B hB
  have hxA : ∀ ut ∈ uts, ut.id ≠ A := by
    intro ut hut hc
    exact hdisj ut hut wA hwA (by rw [hwAu, ← hc])
  have hxB : ∀ ut ∈ uts, ut.id ≠ B := by
    intro ut hut hc
    exact hdisj ut hut wB hwB (by rw [hwBu, ← hc])
  have hchar := hh_char hxA hxB hA hG
  refine ⟨?_, ?_, ?_⟩
  · rw [hchar]
    by_cases hfp : ((buildAcc uts excl).pairs.filter
        (fun p => decide (p.1 = A ∧ p.2.1 = B))) = []
    · rw [if_pos hfp, hfp]
      rfl
    · rw [if_neg hfp]
      rw [show (some (((buildAcc uts excl).pairs.filter
          (fun p => decide (p.1 = A ∧ p.2.1 = B))).map
            (fun p => [("timestamp", p.2.2)]))).getD []
        = ((buildAcc uts excl).pairs.filter
          (fun p => decide (p.1 = A ∧ p.2.1 = B))).map
            (fun p => [("timestamp", p.2.2)]) from rfl]
      rw [List.length_map, List.length_map]
  · refine List.Nodup.map_on ?_ (List.Nodup.filter _ (buildAcc_pairs_nodup uts excl))
    intro x hx y hy hxy
    rw [List.mem_filter] at hx hy
    have hx2 := of_decide_eq_true hx.2
    have hy2 := of_decide_eq_true hy.2
    obtain ⟨xa, xb, xt⟩ := x
    obtain ⟨ya, yb, yt⟩ := y
    simp only [] at hx2 hy2 hxy
    rw [hx2.1, hx2.2, hxy, ← hy2.1, ← hy2.2]
  · intro t
    rw [← buildAcc_pairs_mem, List.mem_map]
    constructor
    · rintro ⟨p, hp, hpt⟩
      rw [List.mem_filter] at hp
      have hp2 := of_decide_eq_true hp.2
      obtain ⟨pa, pb, pt⟩ := p
      simp only [] at hp2 hpt
      rw [← hp2.1, ← hp2.2, ← hpt]
      exact hp.1
    · intro hmem
      refine ⟨(A, B, t), ?_, rfl⟩
      rw [List.mem_filter]
      exact ⟨hmem, by simp⟩

/-- Witness for C8 at `exUts8`: the two same-timestamp replies collapse to
one Hypernode-to-Hypernode edge instance. -/
theorem hh_edge_instances_dedup_witness :
    make_hypergraph exUts8 none = some exG8 ∧
    ((lookup2 exG8.adj_out "A" "B").getD []).length = 1 ∧
    (((lookup2 exG8.adj_out "A" "B").getD []).length
        = ((((buildAcc exUts8 (none : Option String)).pairs.filter
            (fun p => decide (p.1 = "A" ∧ p.2.1 = "B"))).map
              (fun p => p.2.2))).length ∧
      ((((buildAcc exUts8 (none : Option String)).pairs.filter
          (fun p => decide (p.1 = "A" ∧ p.2.1 = "B"))).map
            (fun p => p.2.2))).Nodup ∧
      (∀ t : Int, t ∈ ((((buildAcc exUts8 (none : Option String)).pairs.filter
          (fun p => decide (p.1 = "A" ∧ p.2.1 = "B"))).map (fun p => p.2.2)))
        ↔ ("A", "B", t) ∈ rawTriples exUts8 none)) :=
  ⟨by rfl, by rfl,
    hh_edge_instances_dedup (by decide) (by decide) (by decide) (by rfl)⟩

theorem sum_map_const {β : Type} (l : List β) (c : Nat) :
    (l.map (fun _ => c)).sum = l.length * c := by
  induction l with
  | nil => simp
  | cons x l ih =>
    rw [List.map_cons, List.sum_cons, ih, List.length_cons]
    ring

theorem sum_map_single {β : Type} [DecidableEq β] (S : List β) (hnd : S.Nodup)
    (A : β) (hA : A ∈ S) (f : β → Nat) (hz : ∀ x ∈ S, x ≠ A → f x = 0) :
    (S.map f).sum = f A := by
  induction S with
  | nil => simp at hA
  | cons s S ih =>
    rw [List.nodup_cons] at hnd
    rw [List.map_cons, List.sum_cons]
    rcases List.mem_cons.mp hA with h | h
    · have hz0 : (S.map f).sum = 0 := by
        apply List.sum_eq_zero
        intro x hx
        rw [List.mem_map] at hx
        obtain ⟨y, hy, hyx⟩ := hx
        rw [← hyx]
        refine hz y (List.mem_cons_of_mem _ hy) ?_
        intro hya
        rw [hya, h] at hy
        exact hnd.1 hy
      rw [hz0, h]
      omega
    · rw [ih hnd.2 h (fun x hx hxa => hz x (List.mem_cons_of_mem s hx) hxa),
        hz s (List.mem_cons_self s S) (fun hsa => hnd.1 (by rw [hsa]; exact h))]
      omega

theorem filter_flatMap {β γ : Type} (l : List β) (f : β → List γ) (p : γ → Bool) :
    (l.flatMap f).filter p = l.flatMap (fun x => (f x).filter p) := by
  induction l with
  | nil => rfl
  | cons x l ih =>
    rw [List.flatMap_cons, List.flatMap_cons, List.filter_append, ih]

theorem length_flatMap {β γ : Type} (l : List β) (f : β → List γ) :
    (l.flatMap f).length = (l.map (fun x => (f x).length)).sum := by
  induction l with
  | nil => rfl
  | cons x l ih =>
    rw [List.flatMap_cons, List.length_append, ih, List.map_cons, List.sum_cons]

theorem length_filter_flatMap_single {β γ : Type} [DecidableEq β]
    (S : List β) (hnd : S.Nodup) (A : β) (hA : A ∈ S)
    (F : β → List γ) (p : γ → Bool)
    (hz : ∀ x ∈ S, x ≠ A → ((F x).filter p).length = 0) :
    ((S.flatMap F).filter p).length = ((F A).filter p).length := by
  rw [filter_flatMap, length_flatMap]
  exact sum_map_single S hnd A hA _ (fun x hx hxa => hz x hx hxa)

/-- Counting `dyadic_interaction_motifs` instances with `C1 = C2 = A`: a
self-loop with `k` recorded instances yields `k * k` dyadic instances. -/
theorem dyadic_self_count {α ν : Type} [DecidableEq α] (g : Hypergraph α ν)
    (A : α) (l : List Info) (hnd : (keys g.hypernodes).Nodup)
    (hA : amem g.hypernodes A = true)
    (hin : (keys (lookupD g.adj_out A)).Nodup)
    (hl : alookup (lookupD g.adj_out A) A = some l) :
    ((g.dyadic_interaction_motifs).filter
        (fun m => decide (m.1 = A ∧ m.2.1 = A))).length
      = l.length * l.length := by
  have hmemA : A ∈ keys (lookupD g.adj_out A) := by
    rw [← amem_iff_mem_keys]
    unfold amem
    rw [hl]
    rfl
  have hlD : lookupD (lookupD g.adj_out A) A = l := by
    rw [show lookupD (lookupD g.adj_out A) A
      = (alookup (lookupD g.adj_out A) A).getD [] from rfl, hl]
    rfl
  set p := (fun (m : α × α × Info × Info) => decide (m.1 = A ∧ m.2.1 = A))
    with hp
  set inner := (fun (C1 : α) =>
    ((keys (lookupD g.adj_out C1)).filter (fun C2 =>
        amem g.hypernodes C2 && amem (lookupD g.adj_out C2) C1)).flatMap
      (fun C2 => (lookupD (lookupD g.adj_out C1) C2).flatMap
        (fun e1 => (lookupD (lookupD g.adj_out C2) C1).map
          (fun e2 => (C1, C2, e1, e2))))) with hinner
  have hz1 : ∀ x ∈ keys g.hypernodes, x ≠ A →
      ((inner x).filter p).length = 0 := by
    intro C1 _ hC1
    rw [List.length_eq_zero, List.filter_eq_nil_iff]
    intro m hm
    rw [hinner, List.mem_flatMap] at hm
    obtain ⟨C2, hC2, hm⟩ := hm
    rw [List.mem_flatMap] at hm
    obtain ⟨e1, he1, hm⟩ := hm
    rw [List.mem_map] at hm
    obtain ⟨e2, he2, hm⟩ := hm
    rw [hp, ← hm]
    simp only [decide_eq_true_eq, not_and]
    intro hc
    exact absurd hc hC1
  have hstep1 : ((g.dyadic_interaction_motifs).filter p).length
      = ((inner A).filter p).length := by
    rw [show g.dyadic_interaction_motifs = (keys g.hypernodes).flatMap inner
      from rfl]
    exact length_filter_flatMap_single (keys g.hypernodes) hnd A
      ((amem_iff_mem_keys g.hypernodes A).mp hA) inner p hz1
  set inner2 := (fun (C2 : α) => (lookupD (lookupD g.adj_out A) C2).flatMap
    (fun e1 => (lookupD (lookupD g.adj_out C2) A).map
      (fun e2 => (A, C2, e1, e2)))) with hinner2
  have hz2 : ∀ x ∈ (keys (lookupD g.adj_out A)).filter (fun C2 =>
      amem g.hypernodes C2 && amem (lookupD g.adj_out C2) A), x ≠ A →
      ((inner2 x).filter p).length = 0 := by
    intro C2 _ hC2
    rw [List.length_eq_zero, List.filter_eq_nil_iff]
    intro m hm
    rw [hinner2, List.mem_flatMap] at hm
    obtain ⟨e1, he1, hm⟩ := hm
    rw [List.mem_map] at hm
    obtain ⟨e2, he2, hm⟩ := hm
    rw [hp, ← hm]
    simp only [decide_eq_true_eq, not_and]
    intro _ hc
    exact absurd hc hC2
  have hmemA2 : A ∈ (keys (lookupD g.adj_out A)).filter (fun C2 =>
      amem g.hypernodes C2 && amem (lookupD g.adj_out C2) A) := by
    rw [List.mem_filter]
    refine ⟨hmemA, ?_⟩
    rw [hA, show amem (lookupD g.adj_out A) A = true from
      (amem_iff_mem_keys _ _).mpr hmemA]
    rfl
  have hstep2 : ((inner A).filter p).length = ((inner2 A).filter p).length := by
    rw [show inner A = ((keys (lookupD g.adj_out A)).filter (fun C2 =>
        amem g.hypernodes C2 && amem (lookupD g.adj_out C2) A)).flatMap inner2
      from rfl]
    exact length_filter_flatMap_single _
      (List.Nodup.filter _ hin) A hmemA2 inner2 p hz2
  have hstep3 : ((inner2 A).filter p).length = l.length * l.length := by
    rw [show (inner2 A).filter p = inner2 A from List.filter_eq_self.mpr (by
      intro m hm
      rw [hinner2, List.mem_flatMap] at hm
      obtain ⟨e1, he1, hm⟩ := hm
      rw [List.mem_map] at hm
      obtain ⟨e2, he2, hm⟩ := hm
      rw [hp, ← hm]
      simp)]
    rw [hinner2]
    rw [show (fun (C2 : α) => (lookupD (lookupD g.adj_out A) C2).flatMap
        (fun e1 => (lookupD (lookupD g.adj_out C2) A).map
          (fun e2 => (A, C2, e1, e2)))) A
      = l.flatMap (fun e1 => l.map (fun e2 => (A, A, e1, e2))) by
        rw [show (fun (C2 : α) => (lookupD (lookupD g.adj_out A) C2).flatMap
            (fun e1 => (lookupD (lookupD g.adj_out C2) A).map
              (fun e2 => (A, C2, e1, e2)))) A
          = (lookupD (lookupD g.adj_out A) A).flatMap
            (fun e1 => (lookupD (lookupD g.adj_out A) A).map
              (fun e2 => (A, A, e1, e2))) from rfl, hlD]]
    rw [length_flatMap]
    rw [show (l.map (fun e1 => (l.map (fun e2 => (A, A, e1, e2))).length))
        = l.map (fun _ => l.length) by
      apply List.map_congr_left
      intro e1 _
      rw [List.length_map]]
    rw [sum_map_const]
  rw [hstep1, hstep2, hstep3]

theorem make_hypergraph_hypernodes {α : Type} [DecidableEq α]
    {uts : List (Utt α)} {excl : Option α} {G : Hypergraph α (Utt α)}
    (h : make_hypergraph uts excl = some G) :
    G.hypernodes = (hypernodesPass uts excl).hypernodes := by
  unfold make_hypergraph at h
  rw [Option.bind_eq_some] at h
  obtain ⟨g4, hg4, hc⟩ := h
  unfold speakerReplyPass at hg4
  rw [Option.bind_eq_some] at hg4
  obtain ⟨g3, hg3, hb⟩ := hg4
  unfold replyEdgesPass at hg3
  have e1 : g3.hypernodes = (hypernodesPass uts excl).hypernodes := by
    have := foldlM_preserves (fun (g : Hypergraph α (Utt α)) => g.hypernodes)
      _ _ hg3 (by
        intro t q t' _ hf
        show t'.hypernodes = t.hypernodes
        exact Hypergraph.add_edge_hypernodes hf)
    simpa using this
  have e2 : g4.hypernodes = g3.hypernodes := by
    have := foldlM_preserves (fun (g : Hypergraph α (Utt α)) => g.hypernodes)
      _ _ hb (by
        intro t q t' _ hf
        show t'.hypernodes = t.hypernodes
        have := foldlM_preserves (fun (g : Hypergraph α (Utt α)) => g.hypernodes)
          _ _ hf (by
            intro t2 r t2' _ hf2
            show t2'.hypernodes = t2.hypernodes
            exact Hypergraph.add_edge_hypernodes hf2)
        simpa using this)
    simpa using this
  have e3 : G.hypernodes = g4.hypernodes := by
    have := foldlM_preserves (fun (g : Hypergraph α (Utt α)) => g.hypernodes)
      _ _ hc (by
        intro t q t' _ hf
        show t'.hypernodes = t.hypernodes
        exact Hypergraph.add_edge_hypernodes hf)
    simpa using this
  rw [e3, e2, e1]

/-- C10.  If some participant `A` of the input replies to one of their own
messages (a raw triple `(A, A, t0)` is generated), the built graph carries
a Hypernode-to-Hypernode self-loop on `A` with a non-empty instance list
`l`, and the dyadic-interaction enumeration contains exactly
`l.length * l.length` instances with `C1 = C2 = A` — one per ordered pair
of self-loop edge instances. -/
theorem self_reply_dyadic {α : Type} [DecidableEq α]
    {uts : List (Utt α)} {excl : Option α} {G : Hypergraph α (Utt α)}
    {A : α} {t0 : Int}
    (hdisj : ∀ ut ∈ uts, ∀ w ∈ uts, w.user ≠ ut.id)
    (hA : A ∈ keys (buildAcc uts excl).users)
    (ht : (A, A, t0) ∈ rawTriples uts excl)
    (hG : make_hypergraph uts excl = some G) :
    amem G.hypernodes A = true ∧
    ∃ l, lookup2 G.adj_out A A = some l ∧ l ≠ [] ∧
      ((G.dyadic_interaction_motifs).filter
        (fun m => decide (m.1 = A ∧ m.2.1 = A))).length
        = l.length * l.length := by
  obtain ⟨wA, hwA, hwAu⟩ := buildAcc_users_src uts excl A hA
  have hxA : ∀ ut ∈ uts, ut.id ≠ A := by
    intro ut hut hc
    exact hdisj ut hut wA hwA (by rw [hwAu, ← hc])
  have hchar := hh_char hxA hxA hA hG
  have hmem : (A, A, t0) ∈ (buildAcc uts excl).pairs :=
    (buildAcc_pairs_mem uts excl _).mpr ht
  have hfp : (A, A, t0) ∈ (buildAcc uts excl).pairs.filter
      (fun p => decide (p.1 = A ∧ p.2.1 = A)) := by
    rw [List.mem_filter]
    exact ⟨hmem, by simp⟩
  have hne : (buildAcc uts excl).pairs.filter
      (fun p => decide (p.1 = A ∧ p.2.1 = A)) ≠ [] :=
    List.ne_nil_of_mem hfp
  rw [if_neg hne] at hchar
  have hGhyp : G.hypernodes = (hypernodesPass uts excl).hypernodes :=
    make_hypergraph_hypernodes hG
  have hAmem : amem G.hypernodes A = true := by
    rw [show amem G.hypernodes A
      = amem (hypernodesPass uts excl).hypernodes A by rw [hGhyp]]
    unfold hypernodesPass
    rw [hyperfold_hypernodes_amem]
    exact Or.inr hA
  have hGnd : (keys G.hypernodes).Nodup := by
    rw [hGhyp]
    unfold hypernodesPass
    refine hyperfold_hypernodes_nodup _ _ ?_ (buildAcc_users_nodup uts excl) ?_
    · rw [addNodesPass_hypernodes]
      exact List.nodup_nil
    · intro x _
      rw [addNodesPass_hypernodes]
      rfl
  have hwf : Hypergraph.StoreWF G :=
    Hypergraph.Produced.storeWF (make_hypergraph_produced hG)
  refine ⟨hAmem, ((buildAcc uts excl).pairs.filter
      (fun p => decide (p.1 = A ∧ p.2.1 = A))).map
        (fun p => [("timestamp", p.2.2)]), hchar, by
    intro hcl
    exact hne (List.map_eq_nil_iff.mp hcl), ?_⟩
  rw [dyadic_self_count G A _ hGnd hAmem
    (Hypergraph.lookupD_keys_nodup hwf A).1 (by rw [← lookup2_eq]; exact hchar)]

/-- Witness for C10 at `exUts10`. -/
theorem self_reply_dyadic_witness :
    make_hypergraph exUts10 none = some exG10 ∧
    ("A", "A", (1 : Int)) ∈ rawTriples exUts10 none ∧
    (amem exG10.hypernodes "A" = true ∧
     ∃ l, lookup2 exG10.adj_out "A" "A" = some l ∧ l ≠ [] ∧
       ((exG10.dyadic_interaction_motifs).filter
         (fun m => decide (m.1 = "A" ∧ m.2.1 = "A"))).length
         = l.length * l.length) :=
  ⟨by rfl, by decide,
    @self_reply_dyadic String _ exUts10 none exG10 "A" 1
      (by decide) (by decide) (by decide) (by rfl)⟩

/-- Claim C7: on a collection with exactly one participant who authored two
messages, where the second message replies to the first and there are no
other reply links, building the graph succeeds and `reciprocity_motifs`
returns the empty list (the only reply-back candidates under the author
Hypernode are Node-tier or fail the mutual-edge test). -/
theorem reciprocity_single_author_empty {α : Type} [DecidableEq α]
    (a b u : α) (t1 t2 : Int) (m1 m2 : Info)
    (hab : a ≠ b) (hua : u ≠ a) (hub : u ≠ b) (ht : t1 ≤ t2) :
    (make_hypergraph [⟨a, t1, u, m1, none⟩, ⟨b, t2, u, m2, some a⟩]
        (none : Option α)).map Hypergraph.reciprocity_motifs = some [] := by
  have hba : b ≠ a := Ne.symm hab
  have hau : a ≠ u := Ne.symm hua
  have hbu : b ≠ u := Ne.symm hub
  set u1 : Utt α := ⟨a, t1, u, m1, none⟩ with hu1
  set u2 : Utt α := ⟨b, t2, u, m2, some a⟩ with hu2
  have ht' : u1.timestamp ≤ u2.timestamp := ht
  have hsort : sortByTs [u1, u2] = [u1, u2] := by
    unfold sortByTs
    rw [List.foldl_cons, List.foldl_cons, List.foldl_nil]
    show insAscTs u2 (insAscTs u1 []) = [u1, u2]
    rw [show insAscTs u1 [] = [u1] from rfl]
    unfold insAscTs
    rw [if_pos ht']
    rfl
  have hacc : buildAcc [u1, u2] none =
      ⟨[(u, (m1, [a, b]))], [(b, a)], [(u, [a])], [(u, u, t2)]⟩ := by
    unfold buildAcc
    rw [hsort, List.foldl_cons, List.foldl_cons, List.foldl_nil]
    simp [collectStep, updateUsers, insertNew, List.find?, hu1, hu2,
      hab, hba, hua, hub, hau, hbu]
  have hG : make_hypergraph [u1, u2] none = some
      ⟨[(a, some u1), (b, some u2)], [(u, [a, b])],
       [(a, []), (b, [(a, [[]])]), (u, [(a, [[]]), (u, [[("timestamp", t2)]])])],
       [(a, [(b, [[]]), (u, [[]])]), (b, []),
        (u, [(u, [[("timestamp", t2)]])])]⟩ := by
    unfold make_hypergraph speakerReplyPass replyEdgesPass hypernodesPass
      addNodesPass
    rw [hacc, hsort]
    simp [Hypergraph.add_node, Hypergraph.add_hypernode, Hypergraph.add_edge,
      Hypergraph.hasVertex, Hypergraph.empty, Hypergraph.emptyInfo, amem, insertNew,
      lookupD, keys, hu1, hu2, hab, hba, hua, hub, hau, hbu,
      List.foldlM_cons, List.foldlM_nil]
  rw [hG]
  simp [Hypergraph.reciprocity_motifs, lookupD, amem, keys,
    hab, hba, hua, hub, hau, hbu]

/-- Concrete instance of the C7 theorem: author alice posts m1, then replies
to it with m2; the built graph holds no reciprocity motif. -/
theorem reciprocity_single_author_empty_witness :
    (make_hypergraph [⟨"m1", 0, "alice", [], none⟩,
        ⟨"m2", 1, "alice", [], some "m1"⟩]
      (none : Option String)).map Hypergraph.reciprocity_motifs = some [] :=
  reciprocity_single_author_empty "m1" "m2" "alice" 0 1 [] []
    (by decide) (by decide) (by decide) (by decide)

end HC
